import Mathlib

/-!
Verification development for the Amazon price-tracker core pipeline
(`core/url_utils.py`, `core/price_history.py`, `core/price_tracker.py`,
`core/notifications.py`).

Strings are modelled as `List Char` (`Str`), prices as `ℚ` (exact decimals;
every concrete price in this development is exactly representable, and all
equalities proved between rationals transfer to the corresponding IEEE
doubles because equal decimal literals round identically). Character
classes (`isAlpha`, `isDigit`, lower/upper-casing, whitespace) are modelled
at ASCII level, which is exact for every character class the code applies
them to (URL scheme characters are ASCII-checked by `urlsplit` itself, and
ASINs are ASCII alphanumerics).
-/

set_option maxHeartbeats 2000000

namespace Tracker

abbrev Str := List Char

/-- Python `str.strip()`: drop whitespace from both ends. -/
def pyStrip (s : Str) : Str :=
  ((s.dropWhile Char.isWhitespace).reverse.dropWhile Char.isWhitespace).reverse

/-! ## `urllib.parse` fragment

Model of the slice of CPython 3.11's `urllib.parse` exercised by
`canonicalize_amazon_url`: `urlparse`/`urlsplit` (WHATWG leading-strip,
removal of the unsafe bytes tab/CR/LF, scheme detection, netloc splitting
with the bracket `ValueError`s, fragment/query splitting, `;params`
splitting for `uses_params` schemes) and `urlunparse`/`urlunsplit` with the
`uses_netloc` re-join rule. -/

/-- `_WHATWG_C0_CONTROL_OR_SPACE`: code points `0x00`–`0x20`. -/
def isC0OrSpace (c : Char) : Bool := c.toNat ≤ 32

/-- The characters CPython's `urlsplit` deletes before parsing
(`_UNSAFE_URL_BYTES_TO_REMOVE`). -/
def removeUnsafeChars (s : Str) : Str :=
  s.filter (fun c => !(c == '\t' || c == '\r' || c == '\n'))

/-- CPython `scheme_chars`: ASCII letters, digits, `+`, `-`, `.`. -/
def schemeCharB (c : Char) : Bool :=
  c.isAlpha || c.isDigit || c == '+' || c == '-' || c == '.'

/-- Scheme detection of `urlsplit`: split at the first `:` when everything
before it is a nonempty run of scheme characters starting with a letter;
the scheme is lower-cased. Otherwise no scheme is split off. -/
def splitSchemeFn (s : Str) : Str × Str :=
  let pre := s.takeWhile (· != ':')
  match s.dropWhile (· != ':') with
  | ':' :: r =>
    if pre ≠ [] ∧ (pre.headD ' ').isAlpha ∧ pre.all schemeCharB then
      (pre.map Char.toLower, r)
    else ([], s)
  | _ => ([], s)

/-- The characters ending the netloc in `urlsplit`. -/
def netlocStop (c : Char) : Bool := c == '/' || c == '?' || c == '#'

/-- `url.split(c, 1)` guarded by `c in url`: when `c` is absent this
returns `(s, [])`, exactly as the guarded Python code leaves `(url, '')`. -/
def splitOnFirst (c : Char) (s : Str) : Str × Str :=
  (s.takeWhile (· != c), (s.dropWhile (· != c)).tail)

/-- ASCII hexadecimal digit. -/
def isHexDigit (c : Char) : Bool :=
  c.isDigit || ('a' ≤ c ∧ c ≤ 'f') || ('A' ≤ c ∧ c ≤ 'F')

/-- Verdict of CPython `_check_bracketed_host` on the text between the
first `[` and the following `]` of the netloc. The IPvFuture branch
(`v<hex>+.<rest>`) is exact; the `ipaddress.ip_address` branch (accept
IPv6, reject IPv4 and garbage) is approximated by a character-shape check.
Every theorem below treats this as a deterministic verdict on the netloc
(which is all that the proofs use), and no concrete input in this file has
a bracketed host. -/
def bracketedHostOk (h : Str) : Bool :=
  match h with
  | 'v' :: rest =>
    !(rest.takeWhile isHexDigit).isEmpty &&
      (match rest.dropWhile isHexDigit with
       | '.' :: tl => !tl.isEmpty
       | _ => false)
  | _ => h.contains ':' && h.all (fun c => isHexDigit c || c == ':' || c == '.' || c == '%')

structure SplitR where
  scheme : Str
  netloc : Str
  path : Str
  query : Str
  frag : Str
deriving DecidableEq, Repr

/-- CPython 3.11 `urlsplit` (allow_fragments=True). The `.error` cases are
the `ValueError`s: unmatched bracket in the netloc, or a matched bracketed
host that fails `_check_bracketed_host`. `_checknetloc`'s NFKC check is a
no-op on ASCII netlocs and is not modelled. -/
def pyUrlsplit (url0 : Str) : Except Unit SplitR :=
  let u := removeUnsafeChars (url0.dropWhile isC0OrSpace)
  let (scheme, r1) := splitSchemeFn u
  if r1.take 2 = ['/', '/'] then
    let netloc := (r1.drop 2).takeWhile (fun c => !netlocStop c)
    let r2 := (r1.drop 2).dropWhile (fun c => !netlocStop c)
    if ('[' ∈ netloc ∧ ']' ∉ netloc) ∨ (']' ∈ netloc ∧ '[' ∉ netloc) then
      .error ()
    else if '[' ∈ netloc ∧ ']' ∈ netloc ∧
        !bracketedHostOk (((netloc.dropWhile (· != '[')).tail).takeWhile (· != ']')) then
      .error ()
    else
      let (r3, frag) := splitOnFirst '#' r2
      let (path, query) := splitOnFirst '?' r3
      .ok ⟨scheme, netloc, path, query, frag⟩
  else
    let (r3, frag) := splitOnFirst '#' r1
    let (path, query) := splitOnFirst '?' r3
    .ok ⟨scheme, [], path, query, frag⟩

/-- CPython 3.11 `uses_params`. -/
def usesParams : List Str :=
  [[], "ftp".toList, "hdl".toList, "prospero".toList, "http".toList,
   "imap".toList, "https".toList, "shttp".toList, "rtsp".toList,
   "rtsps".toList, "rtspu".toList, "sip".toList, "sips".toList,
   "mms".toList, "sftp".toList, "tel".toList]

/-- CPython 3.11 `uses_netloc`. -/
def usesNetloc : List Str :=
  [[], "ftp".toList, "http".toList, "gopher".toList, "nntp".toList,
   "telnet".toList, "imap".toList, "wais".toList, "file".toList,
   "mms".toList, "https".toList, "shttp".toList, "snews".toList,
   "prospero".toList, "rtsp".toList, "rtsps".toList, "rtspu".toList,
   "rsync".toList, "svn".toList, "svn+ssh".toList, "sftp".toList,
   "nfs".toList, "git".toList, "git+ssh".toList, "ws".toList,
   "wss".toList]

/-- CPython `_splitparams`: split a trailing `;params` off the last path
segment (after the last `/`, or anywhere when the path has no `/`). -/
def splitParams (s : Str) : Str × Str :=
  if '/' ∈ s then
    let b := (s.reverse.takeWhile (· != '/')).reverse
    let a := (s.reverse.dropWhile (· != '/')).reverse
    if ';' ∈ b then (a ++ b.takeWhile (· != ';'), (b.dropWhile (· != ';')).tail)
    else (s, [])
  else
    (s.takeWhile (· != ';'), (s.dropWhile (· != ';')).tail)

structure ParseR where
  scheme : Str
  netloc : Str
  path : Str
  params : Str
  query : Str
  frag : Str
deriving DecidableEq, Repr

/-- CPython `urlparse` on top of `urlsplit`. -/
def pyUrlparse (u : Str) : Except Unit ParseR :=
  match pyUrlsplit u with
  | .error e => .error e
  | .ok s =>
    if s.scheme ∈ usesParams ∧ ';' ∈ s.path then
      let (p, par) := splitParams s.path
      .ok ⟨s.scheme, s.netloc, p, par, s.query, s.frag⟩
    else
      .ok ⟨s.scheme, s.netloc, s.path, [], s.query, s.frag⟩

/-- CPython 3.11 `urlunsplit`: the `//` is re-inserted when a netloc is
present, or when the scheme is in `uses_netloc` and the path does not
already begin with `//`. -/
def pyUrlunsplit (scheme netloc path query frag : Str) : Str :=
  let u1 :=
    if netloc ≠ [] ∨ (scheme ≠ [] ∧ scheme ∈ usesNetloc ∧ path.take 2 ≠ ['/', '/']) then
      '/' :: '/' :: netloc ++ (if path ≠ [] ∧ path.take 1 ≠ ['/'] then '/' :: path else path)
    else path
  let u2 := if scheme ≠ [] then scheme ++ ':' :: u1 else u1
  let u3 := if query ≠ [] then u2 ++ '?' :: query else u2
  if frag ≠ [] then u3 ++ '#' :: frag else u3

/-- CPython `urlunparse`. -/
def pyUrlunparse (scheme netloc path params query frag : Str) : Str :=
  pyUrlunsplit scheme netloc (if params ≠ [] then path ++ ';' :: params else path) query frag

/-! ## ASIN regexes (`url_utils.ASIN_REGEXES` = `price_history.ASIN_REGEXES`)

Each regex is `re.search`ed (leftmost position wins); `[A-Z0-9]{10}` under
`re.IGNORECASE` is ten ASCII alphanumerics, and the captured group is
upper-cased by the callers. -/

/-- `[A-Z0-9]` under `re.IGNORECASE`. -/
def isAlnumAscii (c : Char) : Bool := c.isAlpha || c.isDigit

/-- Case-insensitive character comparison (ASCII). -/
def charCI (a b : Char) : Bool := a.toLower == b.toLower

/-- Match a literal case-insensitively at the head, returning the rest. -/
def takeLitCI : Str → Str → Option Str
  | [], s => some s
  | _ :: _, [] => none
  | l :: ls, c :: cs => if charCI l c then takeLitCI ls cs else none

/-- Match `<lit>([A-Z0-9]{10})` (IGNORECASE) at the head of `s`, returning
the upper-cased group. -/
def matchLitAsin (lit : Str) (s : Str) : Option Str :=
  match takeLitCI lit s with
  | none => none
  | some rest =>
    let g := rest.take 10
    if g.length = 10 ∧ g.all isAlnumAscii then some (g.map Char.toUpper) else none

/-- `/dp/([A-Z0-9]{10})` at the current position. -/
def matchDpAt (s : Str) : Option Str := matchLitAsin "/dp/".toList s

/-- `/gp/product/([A-Z0-9]{10})` at the current position. -/
def matchGpProductAt (s : Str) : Option Str := matchLitAsin "/gp/product/".toList s

/-- `/gp/aw/d/([A-Z0-9]{10})` at the current position. -/
def matchGpAwDAt (s : Str) : Option Str := matchLitAsin "/gp/aw/d/".toList s

/-- `/product/([A-Z0-9]{10})` at the current position. -/
def matchProductAt (s : Str) : Option Str := matchLitAsin "/product/".toList s

/-- `/[^/]+/dp/([A-Z0-9]{10})` at the current position: a `/`, a nonempty
run of non-`/` characters (which, being unable to cross the next `/`, must
extend exactly to it), then `/dp/` and the group. -/
def matchSlugDpAt (s : Str) : Option Str :=
  match s with
  | '/' :: rest =>
    if rest.takeWhile (· != '/') = [] then none
    else matchLitAsin "/dp/".toList (rest.dropWhile (· != '/'))
  | _ => none

/-- `re.search`: try the matcher at each position from the left. -/
def reSearch (m : Str → Option Str) : Str → Option Str
  | [] => m []
  | c :: t =>
    match m (c :: t) with
    | some r => some r
    | none => reSearch m t

/-- The `for rx in ASIN_REGEXES` loop: first regex with a match wins. -/
def searchAsin (s : Str) : Option Str :=
  (reSearch matchDpAt s).orElse fun _ =>
    (reSearch matchGpProductAt s).orElse fun _ =>
      (reSearch matchGpAwDAt s).orElse fun _ =>
        (reSearch matchProductAt s).orElse fun _ =>
          reSearch matchSlugDpAt s

/-- `url_utils.canonicalize_amazon_url`. -/
def canonicalize_amazon_url (url : Str) : Str :=
  match pyUrlparse url with
  | .error _ => url
  | .ok p =>
    match searchAsin p.path with
    | none =>
      pyUrlunparse (if p.scheme = [] then "https".toList else p.scheme)
        p.netloc p.path [] [] []
    | some asin =>
      pyUrlunparse (if p.scheme = [] then "https".toList else p.scheme)
        (if p.netloc = [] then "www.amazon.com".toList else p.netloc)
        ("/dp/".toList ++ asin) [] [] []

/-- `price_history.PriceHistoryManager._extract_asin`: the same regex list
searched over the whole URL string. -/
def extract_asin (url : Str) : Option Str := searchAsin url

/-! ## Numeric price extraction (`price_tracker.get_price`, lines 119–127)

`price_text_clean = price_text.replace(",","").replace("₹","").replace("$","")
.replace("€","").replace("£","").strip()`, then
`re.search(r'[\d,]+\.?\d*', price_text_clean)`, then
`float(match.group().replace(",",""))`. `\d` is modelled at ASCII level. -/

/-- The chained `str.replace(x, "")` calls: drop every comma and currency
symbol. -/
def stripCurrency (s : Str) : Str :=
  s.filter (fun c => !(c == ',' || c == '₹' || c == '$' || c == '€' || c == '£'))

/-- One run of chars that are a digit or a comma. -/
def isDigitOrComma (c : Char) : Bool := c.isDigit || c == ','

/-- `[\d,]+\.?\d*` matched greedily at the current position. -/
def matchNumAt (s : Str) : Option Str :=
  let run1 := s.takeWhile isDigitOrComma
  if run1.isEmpty then none
  else
    match s.dropWhile isDigitOrComma with
    | '.' :: r2 => some (run1 ++ '.' :: r2.takeWhile Char.isDigit)
    | _ => some run1

/-- `re.search(r'[\d,]+\.?\d*', s)`: leftmost match. -/
def searchNum : Str → Option Str
  | [] => none
  | c :: t =>
    if isDigitOrComma c then matchNumAt (c :: t) else searchNum t

/-- Decimal digit-list value. -/
def natOfDigits (s : Str) : Nat :=
  s.foldl (fun a c => a * 10 + (c.toNat - 48)) 0

/-- Python `float()` on the decimal shapes reachable here:
`digits+ ('.' digits*)?` (anything else, e.g. the empty string, raises
`ValueError`, which the surrounding `try` turns into a failure). -/
def pyFloatDec (s : Str) : Option ℚ :=
  let ip := s.takeWhile Char.isDigit
  match s.dropWhile Char.isDigit with
  | [] => if ip.isEmpty then none else some (natOfDigits ip)
  | '.' :: fr =>
    if fr.all Char.isDigit ∧ ¬(ip.isEmpty ∧ fr.isEmpty) then
      some ((natOfDigits ip : ℚ) + (natOfDigits fr : ℚ) / ((10 : ℚ) ^ fr.length))
    else none
  | _ => none

/-- Lines 119–127 of `get_price`: clean, search, strip commas from the
match, parse as a float; `none` is the raised `ValueError`. -/
def parsePrice (price_text : Str) : Option ℚ :=
  let clean := pyStrip (stripCurrency price_text)
  match searchNum clean with
  | none => none
  | some g => pyFloatDec (g.filter (· != ','))

/-! ## Engine state (`database.models` rows + `price_tracker.PriceTracker`)

The persistence layer is modelled as in-memory lists of rows; session
`add`/`commit` become functional updates. `user_id` is `Option Nat`
because the `PriceTracker` code never sets it. Timestamps are abstract
ticks supplied per operation (`datetime.utcnow()`). -/

structure ProductR where
  pid : Nat
  user_id : Option Nat
  url : Str
  title : Option Str
  threshold : ℚ
  current_price : Option ℚ
  is_active : Bool
  created_at : Nat
  updated_at : Nat
deriving DecidableEq, Repr

structure HistR where
  product_id : Nat
  price : ℚ
  timestamp : Nat
deriving DecidableEq, Repr

/-- The single `NotificationSettings` row read by `get_notifications`:
nullable email and phone number. -/
structure SettingsR where
  email : Option Str
  phone_number : Option Str
deriving DecidableEq, Repr

structure DB where
  products : List ProductR
  history : List HistR
  settings : Option SettingsR
  nextId : Nat
deriving DecidableEq, Repr

/-- The outcome of the network fetch plus BeautifulSoup selector stages of
`get_price`: raw selected title text, raw selected price text, and the
post-redirect `page.url`. `none` is a `requests` failure or a failed
selector chain (all of which raise and are caught). -/
structure FetchRes where
  rawTitle : Str
  rawPrice : Str
  finalUrl : Str
deriving DecidableEq, Repr

/-- The external world: what fetching a URL yields. -/
abbrev Oracle := Str → Option FetchRes

/-- `self.db.query(Product).filter(Product.url == u).first()`. -/
def firstProductWithUrl (db : DB) (u : Str) : Option ProductR :=
  db.products.find? (fun p => p.url == u)

/-- In-place ORM mutation of the row(s) with the given primary key. -/
def updateProduct (db : DB) (pid : Nat) (f : ProductR → ProductR) : DB :=
  { db with products := db.products.map (fun q => if q.pid == pid then f q else q) }

/-- `PriceTracker.get_price`: fetch, extract title (empty → the
`title not found` ValueError), parse the price text, then the persistence
step guarded by `if title and price` (update the row whose stored URL
equals the resolved URL and append one history row). Returns the
`(title, price, final_url)` triple or `none` for `(None, None, None)`. -/
def get_price (F : Oracle) (now : Nat) (db : DB) (url : Str) :
    Option (Str × ℚ × Str) × DB :=
  match F url with
  | none => (none, db)
  | some f =>
    let title := pyStrip f.rawTitle
    if title = [] then (none, db)
    else
      match parsePrice (pyStrip f.rawPrice) with
      | none => (none, db)
      | some price =>
        let db1 :=
          if title ≠ [] ∧ price ≠ 0 then
            match firstProductWithUrl db f.finalUrl with
            | some p =>
              let d := updateProduct db p.pid (fun q =>
                { q with title := some title, current_price := some price, updated_at := now })
              { d with history := d.history ++ [⟨p.pid, price, now⟩] }
            | none => db
          else db
        (some (title, price, f.finalUrl), db1)

/-- The dict view returned by `add_product`/`check_price`/
`update_all_prices` for a persisted product. -/
structure View where
  pid : Nat
  url : Str
  title : Str
  threshold : ℚ
  current_price : ℚ
deriving DecidableEq, Repr

/-- `PriceTracker.add_product`: fetch via `get_price`; on truthy title and
price, update the row whose URL equals the resolved URL (setting
`is_active=True`) or insert a new row, append one history row, and return
the view; otherwise return `None`. -/
def add_product (F : Oracle) (now : Nat) (db : DB) (url : Str) (threshold : ℚ) :
    Option View × DB :=
  match get_price F now db url with
  | (none, db1) => (none, db1)
  | (some (t, pr, ru), db1) =>
    if t ≠ [] ∧ pr ≠ 0 then
      match firstProductWithUrl db1 ru with
      | some p =>
        let d := updateProduct db1 p.pid (fun q =>
          { q with title := some t, threshold := threshold, current_price := some pr,
                   is_active := true, updated_at := now })
        let d2 := { d with history := d.history ++ [⟨p.pid, pr, now⟩] }
        (some ⟨p.pid, p.url, t, threshold, pr⟩, d2)
      | none =>
        let pid := db1.nextId
        let np : ProductR :=
          ⟨pid, none, ru, some t, threshold, some pr, true, now, now⟩
        let d2 : DB :=
          { db1 with products := db1.products ++ [np],
                     history := db1.history ++ [⟨pid, pr, now⟩],
                     nextId := pid + 1 }
        (some ⟨pid, ru, t, threshold, pr⟩, d2)
    else (none, db1)

/-- Result of `check_price`: a persisted view or the ephemeral
`{url, title, current_price}` dict for an untracked product. -/
inductive CheckRes where
  | tracked (v : View)
  | ephemeral (url : Str) (title : Str) (price : ℚ)
deriving DecidableEq, Repr

/-- `PriceTracker.check_price`. -/
def check_price (F : Oracle) (now : Nat) (db : DB) (url : Str) :
    Option CheckRes × DB :=
  match get_price F now db url with
  | (none, db1) => (none, db1)
  | (some (t, pr, ru), db1) =>
    if t ≠ [] ∧ pr ≠ 0 then
      match firstProductWithUrl db1 ru with
      | some p =>
        let d := updateProduct db1 p.pid (fun q =>
          { q with title := some t, current_price := some pr, updated_at := now })
        (some (.tracked ⟨p.pid, p.url, t, p.threshold, pr⟩), d)
      | none => (some (.ephemeral ru t pr), db1)
    else (none, db1)

/-- One iteration of the `update_all_prices` loop over the snapshot
product `p`. -/
def uapStep (F : Oracle) (now : Nat) (acc : List View × DB) (p : ProductR) :
    List View × DB :=
  match get_price F now acc.2 p.url with
  | (some (t, pr, _), db1) =>
    if t ≠ [] ∧ pr ≠ 0 then
      (acc.1 ++ [⟨p.pid, p.url, t, p.threshold, pr⟩],
       updateProduct db1 p.pid (fun q =>
         { q with title := some t, current_price := some pr, updated_at := now }))
    else (acc.1, db1)
  | (none, db1) => (acc.1, db1)

/-- `PriceTracker.update_all_prices`: iterate the active products, skip
any whose `get_price` is falsy, update the rest in place, return the views
of the updated ones. -/
def update_all_prices (F : Oracle) (now : Nat) (db : DB) : List View × DB :=
  (db.products.filter (·.is_active)).foldl (uapStep F now) ([], db)

/-- `PriceTracker.get_notifications`: the stored settings with `None`
fields replaced by `""`, or both `""` when no row exists. -/
def get_notifications (db : DB) : Str × Str :=
  match db.settings with
  | some s => (s.email.getD [], s.phone_number.getD [])
  | none => ([], [])

/-- An attempted notification dispatch, with the recipient, message data
and the delivery verdict returned by the channel. `send_mail` never raises
(it returns `False` on any error); `send_whatsapp` is modelled from the
spec, see `check_and_alert`. -/
inductive NotifEv where
  | email (dest : Str) (title : Str) (url : Str) (delivered : Bool)
  | whatsapp (dest : Str) (title : Str) (url : Str) (delivered : Bool)
deriving DecidableEq, Repr

/-- An entry of the list returned by `check_and_alert`. -/
structure AlertR where
  url : Str
  title : Str
  price : ℚ
  threshold : ℚ
deriving DecidableEq, Repr

/-- Delivery outcome oracle for one channel: given (recipient, title,
url), did the send succeed? `send_mail` (notifications.py) returns a Bool
and catches every exception. Modelled from the spec: `send_whatsapp` —
its implementation in `core/notifications.py` is commented out and only
its callers and the package export remain; per spec §4.6/§6 it is a
best-effort, non-throwing `sendSms(to, title, url) -> bool`. Both are
therefore total Bool-valued functions whose result `check_and_alert`
ignores. -/
abbrev SendOracle := Str → Str → Str → Bool

/-- One iteration of the `check_and_alert` loop over the snapshot product
`p`, with the notification settings `(em, ph)` read before the loop. -/
def caStep (F : Oracle) (now : Nat) (sendMail sendWa : SendOracle) (em ph : Str)
    (acc : List AlertR × DB × List NotifEv) (p : ProductR) :
    List AlertR × DB × List NotifEv :=
  match get_price F now acc.2.1 p.url with
  | (some (t, pr, _), db1) =>
    if t ≠ [] ∧ pr ≠ 0 then
      if pr ≤ p.threshold then
        let evs :=
          (if em ≠ [] then [NotifEv.email em t p.url (sendMail em t p.url)] else []) ++
            (if ph ≠ [] then [NotifEv.whatsapp ph t p.url (sendWa ph t p.url)] else [])
        (acc.1 ++ [⟨p.url, t, pr, p.threshold⟩],
         updateProduct db1 p.pid (fun q => { q with is_active := false }),
         acc.2.2 ++ evs)
      else (acc.1, db1, acc.2.2)
    else (acc.1, db1, acc.2.2)
  | (none, db1) => (acc.1, db1, acc.2.2)

/-- `PriceTracker.check_and_alert`: for each active product fetch the
price (the history append happens inside `get_price`); when the price is
truthy and `<=` threshold, attempt each configured channel, mark the
product inactive, and add it to the returned list. Also returns the trace
of attempted notifications. -/
def check_and_alert (F : Oracle) (now : Nat) (sendMail sendWa : SendOracle)
    (db : DB) : List AlertR × DB × List NotifEv :=
  let notif := get_notifications db
  (db.products.filter (·.is_active)).foldl
    (caStep F now sendMail sendWa notif.1 notif.2) ([], db, [])

/-- `price_history.PriceHistoryManager._find_product_by_url`: exact URL
match scoped to the user, then canonical-URL match when canonicalization
produced a different (truthy) string, then case-insensitive ASIN
containment (`ilike '%asin%'`). -/
def find_product_by_url (db : DB) (user_id : Nat) (url : Str) : Option ProductR :=
  match db.products.find? (fun p => p.user_id == some user_id && p.url == url) with
  | some p => some p
  | none =>
    let canon := canonicalize_amazon_url url
    match (if canon ≠ [] ∧ canon ≠ url then
             db.products.find? (fun p => p.user_id == some user_id && p.url == canon)
           else none) with
    | some p => some p
    | none =>
      match (extract_asin url).orElse (fun _ => extract_asin canon) with
      | some asin =>
        db.products.find? (fun p =>
          p.user_id == some user_id &&
            decide ((asin.map Char.toLower) <:+: (p.url.map Char.toLower)))
      | none => none

/-! ## Claim-side reference definitions

These are written from the spec's words, to be compared with the
source-derived definitions above. -/

/-- Spec §4.1 pattern list: the four literal path shapes and the
`/<slug>/dp/` variant, in the spec's order. -/
inductive SpecPat where
  | lit (l : Str)
  | slugDp
deriving DecidableEq, Repr

def specPatList : List SpecPat :=
  [.lit "/dp/".toList, .lit "/gp/product/".toList, .lit "/gp/aw/d/".toList,
   .lit "/product/".toList, .slugDp]

/-- Spec-side product id at the head: ten alphanumerics, upper-cased. -/
def specIdAt (s : Str) : Option Str :=
  if (s.take 10).length = 10 ∧ (s.take 10).all isAlnumAscii then
    some ((s.take 10).map Char.toUpper)
  else none

/-- Spec-side: a case-insensitive literal followed by the id. -/
def specLitIdAt (lit s : Str) : Option Str :=
  if (s.take lit.length).map Char.toLower = lit ∧ lit.length ≤ s.length then
    specIdAt (s.drop lit.length)
  else none

/-- Spec-side `/<slug>/dp/<ID>` at the head. -/
def specSlugIdAt (s : Str) : Option Str :=
  match s with
  | '/' :: r =>
    if r.takeWhile (· != '/') = [] then none
    else specLitIdAt "/dp/".toList (r.dropWhile (· != '/'))
  | _ => none

def specPatAt : SpecPat → Str → Option Str
  | .lit l, s => specLitIdAt l s
  | .slugDp, s => specSlugIdAt s

/-- Spec-side leftmost occurrence of one pattern. -/
def specScan (p : SpecPat) : Str → Option Str
  | [] => specPatAt p []
  | c :: t =>
    match specPatAt p (c :: t) with
    | some r => some r
    | none => specScan p t

/-- Spec-side ordered search: first pattern with a match wins. -/
def specFindId (path : Str) : Option Str :=
  specPatList.foldl (fun acc p => acc.orElse fun _ => specScan p path) none

/-- Claim C7's reference `canonicalize`, written from the claim's words:
on a pattern match the result is `<scheme>://<host>/dp/<ID>`; otherwise
the original scheme+host+path with query and fragment stripped; on parse
failure the input unchanged. -/
def specCanonClaim (url : Str) : Str :=
  match pyUrlparse url with
  | .error _ => url
  | .ok p =>
    match specFindId p.path with
    | some id => p.scheme ++ "://".toList ++ p.netloc ++ "/dp/".toList ++ id
    | none =>
      (if p.scheme ≠ [] then p.scheme ++ [':'] else []) ++
        (if p.netloc ≠ [] then '/' :: '/' :: p.netloc else []) ++ p.path

/-- Claim C7's reference as amended: an absent scheme defaults to `https`
and, on a pattern match, an absent host to `www.amazon.com`; in the
no-match case the scheme+host/path re-join follows CPython's
`uses_netloc` rule (`//` re-inserted for netloc-using schemes, a `/`
prepended to a relative path). -/
def specCanonAmended (url : Str) : Str :=
  match pyUrlparse url with
  | .error _ => url
  | .ok p =>
    let scheme := if p.scheme = [] then "https".toList else p.scheme
    match specFindId p.path with
    | some id =>
      scheme ++ ':' :: '/' :: '/' ::
        (if p.netloc = [] then "www.amazon.com".toList else p.netloc) ++
          '/' :: 'd' :: 'p' :: '/' :: id
    | none =>
      if p.netloc ≠ [] ∨ (scheme ∈ usesNetloc ∧ p.path.take 2 ≠ ['/', '/']) then
        scheme ++ ':' :: '/' :: '/' :: p.netloc ++
          (if p.path ≠ [] ∧ p.path.take 1 ≠ ['/'] then '/' :: p.path else p.path)
      else scheme ++ ':' :: p.path

/-- Claim C9's pattern `digits(,digits)*(.digits)?`: the `(,digits)*`
repetition consumed greedily. -/
def refCommaGroups : Str → Str × Str
  | ',' :: r =>
    let d := r.takeWhile Char.isDigit
    if d.isEmpty then ([], ',' :: r)
    else
      let (g, r2) := refCommaGroups (r.dropWhile Char.isDigit)
      (',' :: (d ++ g), r2)
  | s => ([], s)
termination_by s => s.length
decreasing_by
  simp only [List.length_cons]
  exact Nat.lt_succ_of_le (List.Sublist.length_le (List.dropWhile_sublist _))

/-- Claim C9's pattern matched at the current position. -/
def refNumAt (s : Str) : Option Str :=
  let d1 := s.takeWhile Char.isDigit
  if d1.isEmpty then none
  else
    let gr := refCommaGroups (s.dropWhile Char.isDigit)
    match gr.2 with
    | '.' :: r2 =>
      if (r2.takeWhile Char.isDigit).isEmpty then some (d1 ++ gr.1)
      else some (d1 ++ gr.1 ++ '.' :: r2.takeWhile Char.isDigit)
    | _ => some (d1 ++ gr.1)

/-- Claim C9's pattern search (leftmost; a match must begin with a digit). -/
def refSearchNum : Str → Option Str
  | [] => none
  | c :: t => if c.isDigit then refNumAt (c :: t) else refSearchNum t

/-- Claim C9's reference extraction: strip separators and currency
symbols, search the claimed pattern, strip remaining separators, parse. -/
def refParsePrice (price_text : Str) : Option ℚ :=
  let clean := pyStrip (stripCurrency price_text)
  match refSearchNum clean with
  | none => none
  | some g => pyFloatDec (g.filter (· != ','))

/-- Claim C6's strategy (1): exact stored-URL match on `(owner, url)`. -/
def resolveExact (db : DB) (uid : Nat) (u : Str) : Option ProductR :=
  db.products.find? (fun p => p.user_id == some uid && p.url == u)

/-- Claim C6's strategy (3): case-insensitive substring match of a
product-id against the owner's stored URLs. -/
def resolveByAsin (db : DB) (uid : Nat) (asin : Str) : Option ProductR :=
  db.products.find? (fun p =>
    p.user_id == some uid &&
      decide ((asin.map Char.toLower) <:+: (p.url.map Char.toLower)))

/-- Claim C6's resolver: the three strategies tried in priority order,
strategy (2) only when canonicalization changed the string, first hit
wins, `none` when no strategy matches. -/
def claimResolve (db : DB) (uid : Nat) (url : Str) : Option ProductR :=
  (resolveExact db uid url).orElse fun _ =>
    (if canonicalize_amazon_url url ≠ url then
       resolveExact db uid (canonicalize_amazon_url url)
     else none).orElse fun _ =>
      match (extract_asin url).orElse (fun _ => extract_asin (canonicalize_amazon_url url)) with
      | some asin => resolveByAsin db uid asin
      | none => none

/-- Claim C2's expected notification trace: for each alerted product, the
configured channels in order (email then WhatsApp), each carrying its own
delivery verdict; an unconfigured channel contributes nothing. -/
def expectedTrace (em ph : Str) (sm sw : SendOracle) (alerts : List AlertR) : List NotifEv :=
  alerts.flatMap fun a =>
    (if em ≠ [] then [NotifEv.email em a.title a.url (sm em a.title a.url)] else []) ++
      (if ph ≠ [] then [NotifEv.whatsapp ph a.title a.url (sw ph a.title a.url)] else [])

/-- The view `update_all_prices` is expected to report for the snapshot
product `q`: present exactly when the fetch fully succeeds with a truthy
title and price. -/
def uapExpected (F : Oracle) (q : ProductR) : Option View :=
  match F q.url with
  | none => none
  | some f =>
    match parsePrice (pyStrip f.rawPrice) with
    | none => none
    | some pr =>
      if pyStrip f.rawTitle ≠ [] ∧ pr ≠ 0 then
        some ⟨q.pid, q.url, pyStrip f.rawTitle, q.threshold, pr⟩
      else none

/-- The row key `(pid, url)` preserved by every in-place update. -/
def pu (r : ProductR) : Nat × Str := (r.pid, r.url)

/-- The inputs on which `canonicalize_amazon_url` is idempotent (claim C8
as amended): parse failures, URLs whose path carries a product-id, URLs
with a host, and URLs whose path neither begins with `//` nor (for a
netloc-using effective scheme and a relative path) gains a product-id when
a `/` is prepended. -/
def idemCond (u : Str) : Prop :=
  match pyUrlparse u with
  | .error _ => True
  | .ok p =>
    (searchAsin p.path).isSome = true ∨
    p.netloc ≠ [] ∨
    (p.path.take 2 ≠ ['/', '/'] ∧
      ((if p.scheme = [] then "https".toList else p.scheme) ∉ usesNetloc ∨
       p.path.take 1 = ['/'] ∨ p.path = [] ∨
       searchAsin ('/' :: p.path) = none))

/-- Positional invariant threaded through a batch loop: the state's
product list splits around the tracked row `ρ`, and the `(pid, url)` keys
of the surrounding rows are fixed. -/
def InvP (A1 A2 : List (Nat × Str)) (ρ : ProductR) (d : DB) : Prop :=
  ∃ u1 u2, d.products = u1 ++ ρ :: u2 ∧ u1.map pu = A1 ∧ u2.map pu = A2

/-- The history rows of a given product. -/
def histP (d : DB) (pid : Nat) : List HistR :=
  d.history.filter (fun h => h.product_id == pid)

/-- Every active product's successful fetch resolves (post-redirect) to
that product's own stored URL. -/
def ownResolveB (F : Oracle) (db : DB) : Bool :=
  db.products.all (fun q =>
    !q.is_active || (F q.url).all (fun f => f.finalUrl == q.url))

/-- No active product's successful fetch resolves to the URL `u`. -/
def noAliasB (F : Oracle) (db : DB) (u : Str) : Bool :=
  db.products.all (fun q =>
    !q.is_active || (F q.url).all (fun f => f.finalUrl != u))

/-- A fetch that `get_price` turns into `(None, None, None)`: network or
selector failure, an empty stripped title, or unparseable price text. -/
def fetchFailsB (F : Oracle) (url : Str) : Bool :=
  match F url with
  | none => true
  | some f =>
    pyStrip f.rawTitle == [] || (parsePrice (pyStrip f.rawPrice)).isNone

/-- A fetch the engine treats as failed: a genuine failure or a result
whose price is exactly 0 (falsy in Python). -/
def fetchIneffectiveB (F : Oracle) (url : Str) : Bool :=
  fetchFailsB F url ||
    match F url with
    | none => true
    | some f => parsePrice (pyStrip f.rawPrice) == some 0

/-! ## Theorems -/

/-- On a failed fetch `get_price` returns the `(None, None, None)` triple
and leaves the database untouched. -/
theorem get_price_of_fails {F : Oracle} {url : Str} (now : Nat) (db : DB)
    (h : fetchFailsB F url = true) :
    get_price F now db url = (none, db) := by
  unfold get_price
  unfold fetchFailsB at h
  cases hF : F url with
  | none => rfl
  | some f =>
    rw [hF] at h
    simp only [Bool.or_eq_true, beq_iff_eq, Option.isNone_iff_eq_none] at h
    rcases h with h | h
    · simp [h]
    · simp [h]

/-- C5. `add_product` on a URL whose fetch or extraction fails returns
`None` and leaves the persistent state unchanged: no product row is
created, none is modified, and no history row is appended. -/
theorem C5_add_product_failure_noop (F : Oracle) (now : Nat) (db : DB)
    (url : Str) (threshold : ℚ) (h : fetchFailsB F url = true) :
    add_product F now db url threshold = (none, db) := by
  unfold add_product
  rw [get_price_of_fails now db h]

/-- Witness for C5 at a concrete input: an oracle that fails on every URL. -/
theorem C5_add_product_failure_noop_witness :
    add_product (fun _ => none) 0 ⟨[], [], none, 1⟩ "u".toList 5 =
      (none, ⟨[], [], none, 1⟩) :=
  C5_add_product_failure_noop (fun _ => none) 0 ⟨[], [], none, 1⟩ "u".toList 5 rfl

/-- A successful fetch whose price parses to exactly `0`: `get_price`
returns the triple but skips its persistence step. -/
theorem get_price_of_zero {F : Oracle} {url : Str} {f : FetchRes} (now : Nat)
    (db : DB) (hF : F url = some f)
    (hp : parsePrice (pyStrip f.rawPrice) = some 0) :
    get_price F now db url =
      (if pyStrip f.rawTitle = [] then none
       else some (pyStrip f.rawTitle, 0, f.finalUrl), db) := by
  unfold get_price
  rw [hF]
  by_cases ht : pyStrip f.rawTitle = []
  · simp [ht]
  · simp [ht, hp]

/-- An ineffective fetch leaves `uapStep` with exactly its accumulator. -/
theorem uapStep_noop {F : Oracle} (now : Nat) {p : ProductR}
    (h : fetchIneffectiveB F p.url = true) (acc : List View × DB) :
    uapStep F now acc p = acc := by
  unfold fetchIneffectiveB fetchFailsB at h
  unfold uapStep
  cases hF : F p.url with
  | none => rw [get_price_of_fails now acc.2 (by unfold fetchFailsB; rw [hF])]
  | some f =>
    rw [hF] at h
    simp only [Bool.or_eq_true, beq_iff_eq, Option.isNone_iff_eq_none] at h
    rcases h with (h | h) | h
    · rw [get_price_of_fails now acc.2 (by unfold fetchFailsB; rw [hF]; simp [h])]
    · rw [get_price_of_fails now acc.2 (by unfold fetchFailsB; rw [hF]; simp [h])]
    · rw [get_price_of_zero now acc.2 hF h]
      by_cases ht : pyStrip f.rawTitle = []
      · simp [ht]
      · simp [ht]

/-- An ineffective fetch leaves `caStep` with exactly its accumulator. -/
theorem caStep_noop {F : Oracle} (now : Nat) (sm sw : SendOracle) (em ph : Str)
    {p : ProductR} (h : fetchIneffectiveB F p.url = true)
    (acc : List AlertR × DB × List NotifEv) :
    caStep F now sm sw em ph acc p = acc := by
  unfold fetchIneffectiveB fetchFailsB at h
  unfold caStep
  cases hF : F p.url with
  | none => rw [get_price_of_fails now acc.2.1 (by unfold fetchFailsB; rw [hF])]
  | some f =>
    rw [hF] at h
    simp only [Bool.or_eq_true, beq_iff_eq, Option.isNone_iff_eq_none] at h
    rcases h with (h | h) | h
    · rw [get_price_of_fails now acc.2.1 (by unfold fetchFailsB; rw [hF]; simp [h])]
    · rw [get_price_of_fails now acc.2.1 (by unfold fetchFailsB; rw [hF]; simp [h])]
    · rw [get_price_of_zero now acc.2.1 hF h]
      by_cases ht : pyStrip f.rawTitle = []
      · simp [ht]
      · simp [ht]

theorem foldl_noop {α β : Type} (step : β → α → β) (l : List α) (P : α → Prop)
    (hl : ∀ p ∈ l, P p) (hstep : ∀ p, P p → ∀ acc, step acc p = acc) :
    ∀ acc, l.foldl step acc = acc := by
  induction l with
  | nil => intro acc; rfl
  | cons x xs ih =>
    intro acc
    rw [List.foldl_cons, hstep x (hl x (by simp)) acc]
    exact ih (fun p hp => hl p (by simp [hp])) acc

/-- C10. A fetched page whose extracted price is exactly `0`, or whose
extracted title strips to the empty string, is treated by every engine
operation as a failed fetch: `get_price` skips its own persistence,
`add_product` and `check_price` return `None` without touching the state,
and a cycle of `update_all_prices` or `check_and_alert` over products
whose fetches are all ineffective changes nothing, returns no updated
views and fires no alert — because success is decided by the Python
truthiness of the title and the price. -/
theorem C10_zero_price_is_failure :
    (∀ (F : Oracle) (now : Nat) (db : DB) (url : Str) (threshold : ℚ) (f : FetchRes),
      F url = some f → parsePrice (pyStrip f.rawPrice) = some 0 →
      (get_price F now db url).2 = db ∧
      add_product F now db url threshold = (none, db) ∧
      check_price F now db url = (none, db)) ∧
    (∀ (F : Oracle) (now : Nat) (db : DB) (url : Str) (threshold : ℚ) (f : FetchRes),
      F url = some f → pyStrip f.rawTitle = [] →
      get_price F now db url = (none, db) ∧
      add_product F now db url threshold = (none, db) ∧
      check_price F now db url = (none, db)) ∧
    (∀ (F : Oracle) (now : Nat) (sm sw : SendOracle) (db : DB),
      (∀ p ∈ db.products, p.is_active = true → fetchIneffectiveB F p.url = true) →
      update_all_prices F now db = ([], db) ∧
      check_and_alert F now sm sw db = ([], db, [])) := by
  refine ⟨?_, ?_, ?_⟩
  · intro F now db url threshold f hF hp
    refine ⟨?_, ?_, ?_⟩
    · rw [get_price_of_zero now db hF hp]
    · unfold add_product
      rw [get_price_of_zero now db hF hp]
      by_cases ht : pyStrip f.rawTitle = []
      · simp [ht]
      · simp [ht]
    · unfold check_price
      rw [get_price_of_zero now db hF hp]
      by_cases ht : pyStrip f.rawTitle = []
      · simp [ht]
      · simp [ht]
  · intro F now db url threshold f hF ht
    have hfail : fetchFailsB F url = true := by
      unfold fetchFailsB; rw [hF]; simp [ht]
    refine ⟨get_price_of_fails now db hfail, ?_, ?_⟩
    · unfold add_product; rw [get_price_of_fails now db hfail]
    · unfold check_price; rw [get_price_of_fails now db hfail]
  · intro F now sm sw db hdb
    constructor
    · unfold update_all_prices
      exact foldl_noop _ _ (fun p => fetchIneffectiveB F p.url = true)
        (fun p hp => hdb p (List.mem_of_mem_filter hp)
          (by simpa using List.of_mem_filter hp))
        (fun p hp acc => uapStep_noop now hp acc) ([], db)
    · unfold check_and_alert
      exact foldl_noop _ _ (fun p => fetchIneffectiveB F p.url = true)
        (fun p hp => hdb p (List.mem_of_mem_filter hp)
          (by simpa using List.of_mem_filter hp))
        (fun p hp acc => caStep_noop now sm sw _ _ hp acc) ([], db, [])

/-- Witness for C10 at concrete inputs: a page with price text `"0"` and a
page with a whitespace-only title. -/
theorem C10_zero_price_is_failure_witness :
    (let F : Oracle := fun _ => some ⟨"T".toList, "0".toList, "u".toList⟩
     add_product F 0 ⟨[], [], none, 1⟩ "u".toList 5 = (none, ⟨[], [], none, 1⟩)) ∧
    (let G : Oracle := fun _ => some ⟨"  ".toList, "9".toList, "u".toList⟩
     check_price G 0 ⟨[], [], none, 1⟩ "u".toList = (none, ⟨[], [], none, 1⟩)) ∧
    update_all_prices (fun _ => some ⟨"T".toList, "0".toList, "u".toList⟩) 0
        ⟨[⟨1, none, "u".toList, none, 5, none, true, 0, 0⟩], [], none, 2⟩ =
      ([], ⟨[⟨1, none, "u".toList, none, 5, none, true, 0, 0⟩], [], none, 2⟩) :=
  ⟨(C10_zero_price_is_failure.1 _ 0 _ "u".toList 5 _ rfl (by decide)).2.1,
   (C10_zero_price_is_failure.2.1 _ 0 _ "u".toList 5 _ rfl (by decide)).2.2,
   (C10_zero_price_is_failure.2.2 (fun _ => some ⟨"T".toList, "0".toList, "u".toList⟩)
      0 (fun _ _ _ => true) (fun _ _ _ => true) _
      (by intro p hp _; simp only [List.mem_singleton] at hp; subst hp; decide)).1⟩

/-! ### Generic list-scanning helpers -/

theorem takeWhile_congr_of_mem {p q : Char → Bool} :
    ∀ {l : Str}, (∀ a ∈ l, p a = q a) → l.takeWhile p = l.takeWhile q
  | [], _ => rfl
  | c :: t, h => by
    have hc : p c = q c := h c (by simp)
    by_cases hq : q c = true
    · rw [List.takeWhile_cons, List.takeWhile_cons, hc, hq, if_pos rfl, if_pos rfl,
          takeWhile_congr_of_mem (fun a ha => h a (by simp [ha]))]
    · rw [List.takeWhile_cons, List.takeWhile_cons, hc,
          if_neg (by simpa using hq), if_neg (by simpa using hq)]

theorem dropWhile_congr_of_mem {p q : Char → Bool} :
    ∀ {l : Str}, (∀ a ∈ l, p a = q a) → l.dropWhile p = l.dropWhile q
  | [], _ => rfl
  | c :: t, h => by
    have hc : p c = q c := h c (by simp)
    by_cases hq : q c = true
    · rw [List.dropWhile_cons, List.dropWhile_cons, hc, hq, if_pos rfl, if_pos rfl,
          dropWhile_congr_of_mem (fun a ha => h a (by simp [ha]))]
    · rw [List.dropWhile_cons, List.dropWhile_cons, hc,
          if_neg (by simpa using hq), if_neg (by simpa using hq)]

theorem mem_of_mem_dropWhile {c : Char} {p : Char → Bool} {l : Str}
    (h : c ∈ l.dropWhile p) : c ∈ l :=
  (List.dropWhile_sublist p (l := l)).mem h

theorem mem_of_mem_takeWhile {c : Char} {p : Char → Bool} {l : Str}
    (h : c ∈ l.takeWhile p) : c ∈ l :=
  (List.takeWhile_sublist p (l := l)).mem h

theorem mem_of_mem_pyStrip {c : Char} {s : Str} (h : c ∈ pyStrip s) : c ∈ s := by
  unfold pyStrip at h
  rw [List.mem_reverse] at h
  have h2 := mem_of_mem_dropWhile h
  rw [List.mem_reverse] at h2
  exact mem_of_mem_dropWhile h2

theorem takeWhile_append_of_all {p : Char → Bool} :
    ∀ {xs : Str} (ys : Str), (∀ c ∈ xs, p c = true) →
      (xs ++ ys).takeWhile p = xs ++ ys.takeWhile p
  | [], ys, _ => rfl
  | x :: xs, ys, h => by
    rw [List.cons_append, List.takeWhile_cons, if_pos (h x (by simp)),
        takeWhile_append_of_all ys (fun c hc => h c (by simp [hc]))]
    rfl

theorem dropWhile_append_of_all {p : Char → Bool} :
    ∀ {xs : Str} (ys : Str), (∀ c ∈ xs, p c = true) →
      (xs ++ ys).dropWhile p = ys.dropWhile p
  | [], ys, _ => rfl
  | x :: xs, ys, h => by
    rw [List.cons_append, List.dropWhile_cons, if_pos (h x (by simp)),
        dropWhile_append_of_all ys (fun c hc => h c (by simp [hc]))]

theorem filter_eq_self_of_all {p : Char → Bool} {l : Str}
    (h : ∀ c ∈ l, p c = true) : l.filter p = l :=
  List.filter_eq_self.2 h

/-! ### C9: numeric normalization -/

/-- No comma survives the currency strip. -/
theorem no_comma_in_clean (s : Str) : ',' ∉ pyStrip (stripCurrency s) := by
  intro h
  have h2 := mem_of_mem_pyStrip h
  unfold stripCurrency at h2
  rcases List.mem_filter.1 h2 with ⟨-, hb⟩
  simp at hb

/-- `refCommaGroups` consumes nothing unless the string starts with a
comma. -/
theorem refCommaGroups_of_not_comma : ∀ {s : Str}, (∀ r, s ≠ ',' :: r) →
    refCommaGroups s = ([], s) := by
  intro s h
  unfold refCommaGroups
  split
  · next r => exact absurd rfl (h r)
  · rfl

/-- `pyFloatDec` on `digits ++ '.' :: digits`. -/
theorem pyFloatDec_dotted (R fr : Str) (hRne : R ≠ [])
    (hRd : ∀ x ∈ R, x.isDigit = true) (hfrd : ∀ x ∈ fr, x.isDigit = true) :
    pyFloatDec (R ++ '.' :: fr) =
      some ((natOfDigits R : ℚ) + (natOfDigits fr : ℚ) / ((10 : ℚ) ^ fr.length)) := by
  unfold pyFloatDec
  rw [takeWhile_append_of_all _ hRd, dropWhile_append_of_all _ hRd,
      List.takeWhile_cons, if_neg (by decide), List.dropWhile_cons,
      if_neg (by decide), List.append_nil]
  simp only [List.takeWhile_eq_self_iff.2 hfrd]
  rw [if_pos ⟨List.all_eq_true.2 hfrd, by simp [List.isEmpty_iff, hRne]⟩]

/-- `pyFloatDec` on a nonempty pure digit run. -/
theorem pyFloatDec_digits (R : Str) (hRne : R ≠ [])
    (hRd : ∀ x ∈ R, x.isDigit = true) :
    pyFloatDec R = some (natOfDigits R) := by
  unfold pyFloatDec
  rw [List.takeWhile_eq_self_iff.2 hRd, List.dropWhile_eq_nil_iff.2 hRd]
  simp [List.isEmpty_iff, hRne]

/-- At a digit position of a comma-free string, the code's pattern and the
claim's pattern both match and their matches parse to the same value. -/
theorem digit_head_match {c : Char} {t : Str} (hc : c.isDigit = true)
    (h : ',' ∉ c :: t) :
    ∃ g1 g2 v, matchNumAt (c :: t) = some g1 ∧ refNumAt (c :: t) = some g2 ∧
      pyFloatDec (g1.filter (· != ',')) = some v ∧
      pyFloatDec (g2.filter (· != ',')) = some v := by
  have htk : (c :: t).takeWhile isDigitOrComma = (c :: t).takeWhile Char.isDigit :=
    takeWhile_congr_of_mem (fun a ha => by
      have : a ≠ ',' := by rintro rfl; exact h ha
      simp [isDigitOrComma, this])
  have hdr : (c :: t).dropWhile isDigitOrComma = (c :: t).dropWhile Char.isDigit :=
    dropWhile_congr_of_mem (fun a ha => by
      have : a ≠ ',' := by rintro rfl; exact h ha
      simp [isDigitOrComma, this])
  have hRcons : (c :: t).takeWhile Char.isDigit = c :: t.takeWhile Char.isDigit := by
    rw [List.takeWhile_cons, if_pos hc]
  have hRne : (c :: t).takeWhile Char.isDigit ≠ [] := by rw [hRcons]; simp
  have hRdig : ∀ x ∈ (c :: t).takeWhile Char.isDigit, x.isDigit = true :=
    fun x hx => List.mem_takeWhile_imp hx
  have hnc : ∀ (u : Str), (∀ x ∈ u, x ∈ (c :: t)) → u.filter (· != ',') = u := by
    intro u hu
    refine filter_eq_self_of_all (fun x hx => ?_)
    simp only [bne_iff_ne, ne_eq, decide_eq_true_eq]
    rintro rfl
    exact h (hu _ hx)
  have hRmem : ∀ x ∈ (c :: t).takeWhile Char.isDigit, x ∈ (c :: t) :=
    fun x hx => mem_of_mem_takeWhile hx
  have hgroups : refCommaGroups ((c :: t).dropWhile Char.isDigit) =
      ([], (c :: t).dropWhile Char.isDigit) := by
    refine refCommaGroups_of_not_comma (fun r hr => h ?_)
    exact mem_of_mem_dropWhile (p := Char.isDigit) (by rw [hr]; simp)
  have hne' : ((c :: t).takeWhile isDigitOrComma).isEmpty ≠ true := by
    rw [htk]
    simp [List.isEmpty_iff, hRne]
  have hne'' : ((c :: t).takeWhile Char.isDigit).isEmpty ≠ true := by
    simp [List.isEmpty_iff, hRne]
  have hplain : pyFloatDec (((c :: t).takeWhile Char.isDigit).filter (· != ',')) =
      some (natOfDigits ((c :: t).takeWhile Char.isDigit)) := by
    rw [hnc _ hRmem]
    exact pyFloatDec_digits _ hRne hRdig
  rcases hD : (c :: t).dropWhile Char.isDigit with _ | ⟨d, r2⟩
  · -- nothing after the digit run
    have hm1 : matchNumAt (c :: t) = some ((c :: t).takeWhile Char.isDigit) := by
      unfold matchNumAt
      rw [if_neg hne', htk, hdr, hD]
    have hm2 : refNumAt (c :: t) = some ((c :: t).takeWhile Char.isDigit) := by
      unfold refNumAt
      rw [if_neg hne'', hgroups, hD]
      simp
    exact ⟨_, _, natOfDigits ((c :: t).takeWhile Char.isDigit), hm1, hm2, hplain, hplain⟩
  · by_cases hdot : d = '.'
    · subst hdot
      have hfrd : ∀ x ∈ r2.takeWhile Char.isDigit, x.isDigit = true :=
        fun x hx => List.mem_takeWhile_imp hx
      have hmemfr : ∀ x ∈ (c :: t).takeWhile Char.isDigit ++ '.' :: r2.takeWhile Char.isDigit,
          x ∈ (c :: t) := by
        intro x hx
        rcases List.mem_append.1 hx with hx | hx
        · exact mem_of_mem_takeWhile hx
        · rcases List.mem_cons.1 hx with rfl | hx
          · exact mem_of_mem_dropWhile (p := Char.isDigit) (by rw [hD]; simp)
          · refine mem_of_mem_dropWhile (p := Char.isDigit) (l := c :: t) ?_
            rw [hD]
            exact List.mem_cons_of_mem _ (mem_of_mem_takeWhile hx)
      have hm1 : matchNumAt (c :: t) =
          some ((c :: t).takeWhile Char.isDigit ++ '.' :: r2.takeWhile Char.isDigit) := by
        unfold matchNumAt
        rw [if_neg hne', htk, hdr, hD]
        rfl
      by_cases hfr : (r2.takeWhile Char.isDigit).isEmpty = true
      · -- a bare trailing dot: the code keeps it, the claim's pattern stops
        have hfr' : r2.takeWhile Char.isDigit = [] := by
          simpa [List.isEmpty_iff] using hfr
        have hm2 : refNumAt (c :: t) = some ((c :: t).takeWhile Char.isDigit) := by
          unfold refNumAt
          rw [if_neg hne'', hgroups, hD]
          simp [hfr']
        rw [hfr'] at hm1
        refine ⟨_, _, natOfDigits ((c :: t).takeWhile Char.isDigit), hm1, hm2, ?_, hplain⟩
        rw [hnc _ (by rw [← hfr']; exact hmemfr),
            pyFloatDec_dotted _ _ hRne hRdig (by simp)]
        simp [natOfDigits]
      · have hm2 : refNumAt (c :: t) =
            some ((c :: t).takeWhile Char.isDigit ++ '.' :: r2.takeWhile Char.isDigit) := by
          unfold refNumAt
          rw [if_neg hne'', hgroups, hD]
          simp [hfr]
        have hval : pyFloatDec (((c :: t).takeWhile Char.isDigit ++
            '.' :: r2.takeWhile Char.isDigit).filter (· != ',')) =
            some ((natOfDigits ((c :: t).takeWhile Char.isDigit) : ℚ) +
              (natOfDigits (r2.takeWhile Char.isDigit) : ℚ) /
                ((10 : ℚ) ^ (r2.takeWhile Char.isDigit).length)) := by
          rw [hnc _ hmemfr]
          exact pyFloatDec_dotted _ _ hRne hRdig hfrd
        exact ⟨_, _, _, hm1, hm2, hval, hval⟩
    · -- the run is followed by something that is not a dot
      have hm1 : matchNumAt (c :: t) = some ((c :: t).takeWhile Char.isDigit) := by
        unfold matchNumAt
        rw [if_neg hne', htk, hdr, hD]
        split
        · next heq =>
          injection heq with h1 _
          exact absurd h1 hdot
        · rfl
      have hm2 : refNumAt (c :: t) = some ((c :: t).takeWhile Char.isDigit) := by
        unfold refNumAt
        rw [if_neg hne'', hgroups, hD]
        simp only []
        split
        · next heq =>
          injection heq with h1 _
          exact absurd h1 hdot
        · simp
      exact ⟨_, _, natOfDigits ((c :: t).takeWhile Char.isDigit), hm1, hm2, hplain, hplain⟩

/-- On comma-free input the two searches fail together or succeed with
equal parsed values. -/
theorem search_correspond : ∀ {t : Str}, ',' ∉ t →
    (searchNum t = none ∧ refSearchNum t = none) ∨
    (∃ g1 g2 v, searchNum t = some g1 ∧ refSearchNum t = some g2 ∧
      pyFloatDec (g1.filter (· != ',')) = some v ∧
      pyFloatDec (g2.filter (· != ',')) = some v) := by
  intro t
  induction t with
  | nil => exact fun _ => Or.inl ⟨rfl, rfl⟩
  | cons c t ih =>
    intro ht
    by_cases hd : c.isDigit = true
    · obtain ⟨g1, g2, v, hm1, hm2, hv1, hv2⟩ := digit_head_match hd ht
      refine Or.inr ⟨g1, g2, v, ?_, ?_, hv1, hv2⟩
      · unfold searchNum
        rw [if_pos (by simp [isDigitOrComma, hd])]
        exact hm1
      · unfold refSearchNum
        rw [if_pos hd]
        exact hm2
    · have hc : c ≠ ',' := fun hcc => ht (by simp [hcc])
      have h1 : searchNum (c :: t) = searchNum t := by
        unfold searchNum
        rw [if_neg (by simp [isDigitOrComma, hd, hc])]
        cases t <;> rfl
      have h2 : refSearchNum (c :: t) = refSearchNum t := by
        unfold refSearchNum
        rw [if_neg hd]
        cases t <;> rfl
      rw [h1, h2]
      exact ih (fun hm => ht (List.mem_cons_of_mem _ hm))

/-- C9. The numeric normalization first strips thousands separators and
the currency symbols, then pattern-searches for the first numeric run,
strips remaining separators and parses as a float; its result always
equals the reference extraction that uses the claimed pattern
`digits(,digits)*(.digits)?`; `"2,999"` parses to `2999.0`; and the
extraction fails (the `price_unparseable` ValueError) exactly when the
claimed pattern finds no numeric run. -/
theorem C9_price_normalization :
    (∀ s : Str, parsePrice s = refParsePrice s) ∧
    (∀ s : Str, parsePrice s = none ↔
      refSearchNum (pyStrip (stripCurrency s)) = none) ∧
    parsePrice "2,999".toList = some 2999 := by
  have key : ∀ s : Str, parsePrice s = refParsePrice s ∧
      (parsePrice s = none ↔ refSearchNum (pyStrip (stripCurrency s)) = none) := by
    intro s
    have hcf := no_comma_in_clean s
    unfold parsePrice refParsePrice
    simp only []
    rcases search_correspond hcf with ⟨h1, h2⟩ | ⟨g1, g2, v, hm1, hm2, hv1, hv2⟩
    · rw [h1, h2]
      simp
    · rw [hm1, hm2]
      simp only []
      rw [hv1, hv2]
      simp [hm2]
  exact ⟨fun s => (key s).1, fun s => (key s).2, by decide⟩

/-! ### C6: the resolver -/

/-- `pyUrlunsplit` with a nonempty scheme and no query or fragment starts
with the scheme, hence is nonempty. -/
theorem pyUrlunsplit_ne_nil (scheme netloc path : Str) (hs : scheme ≠ []) :
    pyUrlunsplit scheme netloc path [] [] ≠ [] := by
  unfold pyUrlunsplit
  simp [hs]

/-- `pyUrlunparse` with no params, query or fragment is `pyUrlunsplit`. -/
theorem pyUrlunparse_eq (s n p : Str) :
    pyUrlunparse s n p [] [] [] = pyUrlunsplit s n p [] [] := by
  unfold pyUrlunparse
  simp

/-- `canonicalize_amazon_url` never returns the empty string, so the
`if canon and canon != url` truthiness guard reduces to `canon != url`. -/
theorem canonicalize_ne_nil (u : Str) : canonicalize_amazon_url u ≠ [] := by
  unfold canonicalize_amazon_url
  cases hp : pyUrlparse u with
  | error e =>
    intro habs
    subst habs
    have : pyUrlparse ([] : Str) = .ok ⟨[], [], [], [], [], []⟩ := rfl
    rw [this] at hp
    cases hp
  | ok p =>
    have hsch : (if p.scheme = [] then "https".toList else p.scheme) ≠ [] := by
      by_cases h : p.scheme = [] <;> simp [h]
    show (match searchAsin p.path with
          | none =>
            pyUrlunparse (if p.scheme = [] then "https".toList else p.scheme)
              p.netloc p.path [] [] []
          | some asin =>
            pyUrlunparse (if p.scheme = [] then "https".toList else p.scheme)
              (if p.netloc = [] then "www.amazon.com".toList else p.netloc)
              ("/dp/".toList ++ asin) [] [] []) ≠ []
    cases hs : searchAsin p.path with
    | none =>
      rw [pyUrlunparse_eq]
      exact pyUrlunsplit_ne_nil _ _ _ hsch
    | some asin =>
      rw [pyUrlunparse_eq]
      exact pyUrlunsplit_ne_nil _ _ _ hsch

/-- C6. The resolver equals the claim's three-strategy priority chain —
exact `(owner, url)` match, exact match on the canonicalized URL attempted
only when canonicalization changed the string, then case-insensitive
substring match of the extracted product-id over the owner's stored rows —
returning the first hit; and it returns `none` exactly when every strategy
misses. It is a pure query: no branch constructs a record. -/
theorem C6_resolver_strategy_chain (db : DB) (uid : Nat) (url : Str) :
    find_product_by_url db uid url = claimResolve db uid url ∧
    (find_product_by_url db uid url = none ↔
      (resolveExact db uid url = none ∧
       (if canonicalize_amazon_url url ≠ url then
          resolveExact db uid (canonicalize_amazon_url url)
        else none) = none ∧
       (match (extract_asin url).orElse
           (fun _ => extract_asin (canonicalize_amazon_url url)) with
        | some asin => resolveByAsin db uid asin
        | none => none) = none)) := by
  have horn : ∀ (y : Option ProductR), Option.orElse none (fun _ => y) = y :=
    fun y => rfl
  have heq : find_product_by_url db uid url = claimResolve db uid url := by
    unfold find_product_by_url claimResolve resolveExact resolveByAsin
    cases h1 : db.products.find? (fun p => p.user_id == some uid && p.url == url) with
    | some p => rfl
    | none =>
      simp only []
      rw [horn]
      by_cases hcu : canonicalize_amazon_url url = url
      · rw [if_neg (fun hand => hand.2 hcu), if_neg (fun hne => hne hcu), horn]
      · rw [if_pos (And.intro (canonicalize_ne_nil url) hcu), if_pos hcu]
        cases h2 : db.products.find?
            (fun p => p.user_id == some uid && p.url == canonicalize_amazon_url url) with
        | some p => rfl
        | none => rw [horn]
  refine ⟨heq, ?_⟩
  rw [heq]
  unfold claimResolve
  by_cases hcu : canonicalize_amazon_url url ≠ url
  · rw [if_pos hcu, Option.orElse_eq_none', Option.orElse_eq_none']
  · rw [if_neg hcu, Option.orElse_eq_none', Option.orElse_eq_none']

/-! ### Engine characterization -/

/-- Characterization of a fully successful `get_price`: the triple is
returned, and the persistence step updates the first row whose stored URL
equals the resolved URL (when there is one) and appends one history row
for it. -/
theorem get_price_success {F : Oracle} {url : Str} {f : FetchRes} {pr : ℚ}
    (now : Nat) (db : DB) (hF : F url = some f)
    (ht : pyStrip f.rawTitle ≠ [])
    (hp : parsePrice (pyStrip f.rawPrice) = some pr) (hpr : pr ≠ 0) :
    get_price F now db url =
      (some (pyStrip f.rawTitle, pr, f.finalUrl),
       match firstProductWithUrl db f.finalUrl with
       | some p =>
         { products := (updateProduct db p.pid (fun q =>
             { q with title := some (pyStrip f.rawTitle),
                      current_price := some pr, updated_at := now })).products,
           history := db.history ++ [⟨p.pid, pr, now⟩],
           settings := db.settings, nextId := db.nextId }
       | none => db) := by
  unfold get_price
  rw [hF]
  simp only []
  rw [if_neg ht, hp]
  simp only []
  rw [if_pos ⟨ht, hpr⟩]
  cases hq : firstProductWithUrl db f.finalUrl with
  | some p => rfl
  | none => rfl

/-- `firstProductWithUrl` is stable under a URL-preserving row update. -/
theorem firstProductWithUrl_updateProduct (db : DB) (pid : Nat)
    (g : ProductR → ProductR) (hg : ∀ q, (g q).url = q.url) (u : Str) :
    firstProductWithUrl (updateProduct db pid g) u =
      (firstProductWithUrl db u).map (fun q => if q.pid == pid then g q else q) := by
  unfold firstProductWithUrl updateProduct
  rw [List.find?_map]
  have hpred : ((fun p => p.url == u) ∘ fun q => if q.pid == pid then g q else q) =
      (fun p : ProductR => p.url == u) := by
    funext q
    by_cases h : q.pid = pid <;> simp [h, hg]
  rw [hpred]

/-- C3 (amended). When `add_product`'s fetch fully succeeds, the identity
URL stored is the post-redirect resolved URL exactly as returned by the
fetcher (not canonicalized): when a row with that URL already exists it is
updated (title, threshold, price, `active=True`) and two history rows are
appended — one by the fetch's own persistence step and one by
`add_product`; otherwise a new active row is inserted and exactly one
history row is appended; in both cases the product view is returned. -/
theorem C3_add_product_success (F : Oracle) (now : Nat) (db : DB) (url : Str)
    (threshold : ℚ) (f : FetchRes) (pr : ℚ)
    (hF : F url = some f) (ht : pyStrip f.rawTitle ≠ [])
    (hp : parsePrice (pyStrip f.rawPrice) = some pr) (hpr : pr ≠ 0) :
    (∀ p, firstProductWithUrl db f.finalUrl = some p →
      p.url = f.finalUrl ∧
      add_product F now db url threshold =
        (some ⟨p.pid, p.url, pyStrip f.rawTitle, threshold, pr⟩,
         { products := db.products.map (fun q =>
             if q.pid == p.pid then
               { q with title := some (pyStrip f.rawTitle), threshold := threshold,
                        current_price := some pr, is_active := true, updated_at := now }
             else q),
           history := db.history ++ [⟨p.pid, pr, now⟩, ⟨p.pid, pr, now⟩],
           settings := db.settings, nextId := db.nextId })) ∧
    (firstProductWithUrl db f.finalUrl = none →
      add_product F now db url threshold =
        (some ⟨db.nextId, f.finalUrl, pyStrip f.rawTitle, threshold, pr⟩,
         { products := db.products ++
             [⟨db.nextId, none, f.finalUrl, some (pyStrip f.rawTitle), threshold,
               some pr, true, now, now⟩],
           history := db.history ++ [⟨db.nextId, pr, now⟩],
           settings := db.settings, nextId := db.nextId + 1 })) := by
  constructor
  · intro p hfind
    have hpurl : p.url = f.finalUrl := by
      have := List.find?_some hfind
      simpa using this
    refine ⟨hpurl, ?_⟩
    unfold add_product
    rw [get_price_success now db hF ht hp hpr, hfind]
    simp only []
    rw [if_pos ⟨ht, hpr⟩]
    -- the second lookup finds the updated copy of the same row
    have hfind2 : firstProductWithUrl
        { products := (updateProduct db p.pid (fun q =>
            { q with title := some (pyStrip f.rawTitle),
                     current_price := some pr, updated_at := now })).products,
          history := db.history ++ [⟨p.pid, pr, now⟩],
          settings := db.settings, nextId := db.nextId } f.finalUrl =
        some (if p.pid == p.pid then
            { p with title := some (pyStrip f.rawTitle),
                     current_price := some pr, updated_at := now }
          else p) := by
      have := firstProductWithUrl_updateProduct db p.pid (fun q =>
        { q with title := some (pyStrip f.rawTitle),
                 current_price := some pr, updated_at := now }) (fun q => rfl) f.finalUrl
      have hfind' := hfind
      unfold firstProductWithUrl at this hfind' ⊢
      simp only at this ⊢
      rw [this, hfind']
      rfl
    rw [hfind2]
    simp only [beq_self_eq_true, if_true]
    unfold updateProduct
    refine Prod.ext rfl ?_
    simp only []
    congr 1
    · simp only [List.map_map]
      congr 1
      funext q
      by_cases h : q.pid = p.pid <;> simp [h]
    · simp
  · intro hfind
    unfold add_product
    rw [get_price_success now db hF ht hp hpr, hfind]
    simp only []
    rw [if_pos ⟨ht, hpr⟩, hfind]

/-- `caStep` appends to the alert list and the trace and threads the
state: the accumulated prefixes can be factored out. -/
theorem caStep_shift (F : Oracle) (now : Nat) (sm sw : SendOracle) (em ph : Str)
    (A : List AlertR) (d : DB) (T : List NotifEv) (p : ProductR) :
    caStep F now sm sw em ph (A, d, T) p =
      (A ++ (caStep F now sm sw em ph ([], d, []) p).1,
       (caStep F now sm sw em ph ([], d, []) p).2.1,
       T ++ (caStep F now sm sw em ph ([], d, []) p).2.2) := by
  unfold caStep
  rcases hg : get_price F now d p.url with ⟨res, db1⟩
  rcases res with _ | ⟨t, pr, ru⟩
  · simp
  · by_cases h1 : t ≠ [] ∧ pr ≠ 0
    · by_cases h2 : pr ≤ p.threshold
      · simp [h1, h2]
      · simp [h1, h2]
    · simp [h1]

/-- Fold version of `caStep_shift`. -/
theorem ca_fold_shift (F : Oracle) (now : Nat) (sm sw : SendOracle) (em ph : Str)
    (l : List ProductR) :
    ∀ (A : List AlertR) (d : DB) (T : List NotifEv),
      l.foldl (caStep F now sm sw em ph) (A, d, T) =
        (A ++ (l.foldl (caStep F now sm sw em ph) ([], d, [])).1,
         (l.foldl (caStep F now sm sw em ph) ([], d, [])).2.1,
         T ++ (l.foldl (caStep F now sm sw em ph) ([], d, [])).2.2) := by
  induction l with
  | nil => intro A d T; simp
  | cons x xs ih =>
    intro A d T
    rw [List.foldl_cons, List.foldl_cons, caStep_shift,
        caStep_shift F now sm sw em ph [] d [] x]
    rcases hx : caStep F now sm sw em ph ([], d, []) x with ⟨X1, d1, Y1⟩
    simp only [List.nil_append]
    rw [ih (A ++ X1) d1 (T ++ Y1), ih X1 d1 Y1]
    simp

/-- The alerts and the final state produced by `caStep` do not depend on
the delivery outcomes or on the already-accumulated trace. -/
theorem caStep_outcome_indep (F : Oracle) (now : Nat) (sm sw sm' sw' : SendOracle)
    (em ph : Str) (A : List AlertR) (d : DB) (T T' : List NotifEv) (p : ProductR) :
    (caStep F now sm sw em ph (A, d, T) p).1 =
      (caStep F now sm' sw' em ph (A, d, T') p).1 ∧
    (caStep F now sm sw em ph (A, d, T) p).2.1 =
      (caStep F now sm' sw' em ph (A, d, T') p).2.1 := by
  unfold caStep
  rcases hg : get_price F now d p.url with ⟨res, db1⟩
  rcases res with _ | ⟨t, pr, ru⟩
  · simp
  · by_cases h1 : t ≠ [] ∧ pr ≠ 0
    · by_cases h2 : pr ≤ p.threshold
      · simp [h1, h2]
      · simp [h1, h2]
    · simp [h1]

/-- Fold version of `caStep_outcome_indep`. -/
theorem ca_fold_outcome_indep (F : Oracle) (now : Nat) (sm sw sm' sw' : SendOracle)
    (em ph : Str) (l : List ProductR) :
    ∀ (A : List AlertR) (d : DB) (T T' : List NotifEv),
      (l.foldl (caStep F now sm sw em ph) (A, d, T)).1 =
        (l.foldl (caStep F now sm' sw' em ph) (A, d, T')).1 ∧
      (l.foldl (caStep F now sm sw em ph) (A, d, T)).2.1 =
        (l.foldl (caStep F now sm' sw' em ph) (A, d, T')).2.1 := by
  induction l with
  | nil => intro A d T T'; exact ⟨rfl, rfl⟩
  | cons x xs ih =>
    intro A d T T'
    rw [List.foldl_cons, List.foldl_cons]
    rcases hx : caStep F now sm sw em ph (A, d, T) x with ⟨X1, d1, Y1⟩
    rcases hx' : caStep F now sm' sw' em ph (A, d, T') x with ⟨X1', d1', Y1'⟩
    have h := caStep_outcome_indep F now sm sw sm' sw' em ph A d T T' x
    rw [hx, hx'] at h
    obtain ⟨h1, h2⟩ := h
    simp only at h1 h2
    subst h1; subst h2
    exact ih X1 d1 Y1 Y1'

/-- The trace grown by one `caStep` from an empty accumulator is exactly
the expected trace of the alerts it produces. -/
theorem caStep_trace (F : Oracle) (now : Nat) (sm sw : SendOracle) (em ph : Str)
    (d : DB) (p : ProductR) :
    (caStep F now sm sw em ph ([], d, []) p).2.2 =
      expectedTrace em ph sm sw (caStep F now sm sw em ph ([], d, []) p).1 := by
  unfold caStep
  rcases hg : get_price F now d p.url with ⟨res, db1⟩
  rcases res with _ | ⟨t, pr, ru⟩
  · simp [expectedTrace]
  · by_cases h1 : t ≠ [] ∧ pr ≠ 0
    · by_cases h2 : pr ≤ p.threshold
      · simp [h1, h2, expectedTrace]
      · simp [h1, h2, expectedTrace]
    · simp [h1, expectedTrace]

/-- Fold version of `caStep_trace`. -/
theorem ca_fold_trace (F : Oracle) (now : Nat) (sm sw : SendOracle) (em ph : Str)
    (l : List ProductR) :
    ∀ d : DB,
      (l.foldl (caStep F now sm sw em ph) ([], d, [])).2.2 =
        expectedTrace em ph sm sw (l.foldl (caStep F now sm sw em ph) ([], d, [])).1 := by
  induction l with
  | nil => intro d; simp [expectedTrace]
  | cons x xs ih =>
    intro d
    rw [List.foldl_cons]
    rcases hx : caStep F now sm sw em ph ([], d, []) x with ⟨X1, d1, Y1⟩
    have htr := caStep_trace F now sm sw em ph d x
    rw [hx] at htr
    simp only at htr
    rw [ca_fold_shift F now sm sw em ph xs X1 d1 Y1]
    simp only
    rw [ih d1, htr, expectedTrace, expectedTrace, expectedTrace, List.flatMap_append]

/-- C2. The channels are attempted independently per threshold crossing:
the final state and alert list do not depend on either channel's delivery
outcome (so a failure of one channel never blocks the other channel's
attempt nor the deactivation), and the notification trace is exactly, for
each alerted product in order, an email attempt when an email address is
configured followed by a WhatsApp attempt when a phone number is
configured — an unconfigured channel is simply skipped. -/
theorem C2_channels_best_effort (F : Oracle) (now : Nat)
    (sm sw sm' sw' : SendOracle) (db : DB) :
    (check_and_alert F now sm sw db).1 = (check_and_alert F now sm' sw' db).1 ∧
    (check_and_alert F now sm sw db).2.1 = (check_and_alert F now sm' sw' db).2.1 ∧
    (check_and_alert F now sm sw db).2.2 =
      expectedTrace (get_notifications db).1 (get_notifications db).2 sm sw
        (check_and_alert F now sm sw db).1 := by
  unfold check_and_alert
  refine ⟨?_, ?_, ?_⟩
  · exact (ca_fold_outcome_indep F now sm sw sm' sw' _ _ _ [] db [] []).1
  · exact (ca_fold_outcome_indep F now sm sw sm' sw' _ _ _ [] db [] []).2
  · exact ca_fold_trace F now sm sw _ _ _ db

/-! ### Frame lemmas for the batch loops -/

theorem find?_middle {α : Type} (pr : α → Bool) {u1 u2 : List α} {ρ : α}
    (h1 : ∀ r ∈ u1, pr r = false) (hρ : pr ρ = true) :
    (u1 ++ ρ :: u2).find? pr = some ρ := by
  induction u1 with
  | nil => simp [List.find?_cons, hρ]
  | cons x xs ih =>
    have hx := h1 x (by simp)
    rw [List.cons_append, List.find?_cons_of_neg _ (by simp [hx])]
    exact ih (fun r hr => h1 r (by simp [hr]))

/-- A key-preserving per-row function does not change the `(pid, url)`
image of a list. -/
theorem map_pu_eq {g : ProductR → ProductR}
    (hg : ∀ q, (g q).pid = q.pid ∧ (g q).url = q.url) (l : List ProductR) :
    (l.map g).map pu = l.map pu := by
  rw [List.map_map]
  refine List.map_congr_left (fun q _ => ?_)
  unfold pu
  simp [(hg q).1, (hg q).2]

theorem updateProduct_history (d : DB) (k : Nat) (g : ProductR → ProductR) :
    (updateProduct d k g).history = d.history := rfl

/-- Updating rows keyed off the tracked row preserves the split
invariant. -/
theorem updateProduct_invP {A1 A2 : List (Nat × Str)} {ρ : ProductR} {d : DB}
    {k : Nat} {g : ProductR → ProductR}
    (hInv : InvP A1 A2 ρ d) (hk : ρ.pid ≠ k)
    (hg : ∀ q, (g q).pid = q.pid ∧ (g q).url = q.url) :
    InvP A1 A2 ρ (updateProduct d k g) := by
  obtain ⟨u1, u2, hsplit, h1, h2⟩ := hInv
  have hfun : ∀ q : ProductR,
      ((fun q => if q.pid == k then g q else q) q).pid = q.pid ∧
      ((fun q => if q.pid == k then g q else q) q).url = q.url := by
    intro q
    by_cases h : q.pid == k <;> simp [h, (hg q).1, (hg q).2]
  refine ⟨u1.map (fun q => if q.pid == k then g q else q),
          u2.map (fun q => if q.pid == k then g q else q), ?_, ?_, ?_⟩
  · show d.products.map _ = _
    rw [hsplit, List.map_append, List.map_cons]
    rw [if_neg (by simpa using hk)]
  · rw [map_pu_eq hfun, h1]
  · rw [map_pu_eq hfun, h2]

/-- Updating rows keyed on the tracked row's own pid rewrites exactly that
row, provided the surrounding keys differ from it. -/
theorem updateProduct_self {A1 A2 : List (Nat × Str)} {ρ : ProductR} {d : DB}
    {g : ProductR → ProductR}
    (hInv : InvP A1 A2 ρ d)
    (hpids : ∀ a ∈ A1 ++ A2, a.1 ≠ ρ.pid) :
    InvP A1 A2 (g ρ) (updateProduct d ρ.pid g) := by
  obtain ⟨u1, u2, hsplit, h1, h2⟩ := hInv
  have hside : ∀ u ∈ u1 ++ u2, u.pid ≠ ρ.pid := by
    intro u hu
    rcases List.mem_append.1 hu with hu | hu
    · exact hpids (pu u) (List.mem_append.2 (Or.inl (h1 ▸ List.mem_map_of_mem pu hu)))
    · exact hpids (pu u) (List.mem_append.2 (Or.inr (h2 ▸ List.mem_map_of_mem pu hu)))
  have hmapid : ∀ (u : List ProductR), (∀ q ∈ u, q.pid ≠ ρ.pid) →
      u.map (fun q => if q.pid == ρ.pid then g q else q) = u := by
    intro u hu
    induction u with
    | nil => rfl
    | cons x xs ih =>
      rw [List.map_cons, if_neg (by simpa using hu x (by simp)),
          ih (fun q hq => hu q (by simp [hq]))]
  refine ⟨u1, u2, ?_, h1, h2⟩
  show d.products.map _ = _
  rw [hsplit, List.map_append, List.map_cons]
  rw [if_pos (by simp)]
  rw [hmapid u1 (fun q hq => hside q (List.mem_append.2 (Or.inl hq))),
      hmapid u2 (fun q hq => hside q (List.mem_append.2 (Or.inr hq)))]

/-- The surviving row under the split invariant is found when looking up
its own pid. -/
theorem find_pid_of_invP {A1 A2 : List (Nat × Str)} {ρ : ProductR} {d : DB}
    (hInv : InvP A1 A2 ρ d) (hpids : ∀ a ∈ A1 ++ A2, a.1 ≠ ρ.pid) :
    d.products.find? (fun r => r.pid == ρ.pid) = some ρ := by
  obtain ⟨u1, u2, hsplit, h1, h2⟩ := hInv
  rw [hsplit]
  refine find?_middle _ (fun r hr => ?_) (by simp)
  have : (pu r).1 ≠ ρ.pid :=
    hpids (pu r) (List.mem_append.2 (Or.inl (h1 ▸ List.mem_map_of_mem pu hr)))
  simpa [pu] using this

/-- The tracked row is found when looking up its own URL, provided the
surrounding URLs differ. -/
theorem find_url_of_invP {A1 A2 : List (Nat × Str)} {ρ : ProductR} {d : DB}
    (hInv : InvP A1 A2 ρ d) (hurls : ∀ a ∈ A1, a.2 ≠ ρ.url) :
    firstProductWithUrl d ρ.url = some ρ := by
  obtain ⟨u1, u2, hsplit, h1, h2⟩ := hInv
  unfold firstProductWithUrl
  rw [hsplit]
  refine find?_middle _ (fun r hr => ?_) (by simp)
  have : (pu r).2 ≠ ρ.url := hurls (pu r) (h1 ▸ List.mem_map_of_mem pu hr)
  simpa [pu] using this

/-- Rows found by URL lookup under the invariant: their pid differs from
the tracked row's whenever their URL does. -/
theorem found_pid_ne {A1 A2 : List (Nat × Str)} {ρ r : ProductR} {d : DB}
    (hInv : InvP A1 A2 ρ d)
    (hpids : ∀ a ∈ A1 ++ A2, a.1 ≠ ρ.pid)
    (hmem : r ∈ d.products) (hurl : r.url ≠ ρ.url) : r.pid ≠ ρ.pid := by
  obtain ⟨u1, u2, hsplit, h1, h2⟩ := hInv
  rw [hsplit] at hmem
  rcases List.mem_append.1 hmem with hr | hr
  · have : (pu r).1 ≠ ρ.pid :=
      hpids (pu r) (List.mem_append.2 (Or.inl (h1 ▸ List.mem_map_of_mem pu hr)))
    simpa [pu] using this
  · rcases List.mem_cons.1 hr with rfl | hr
    · exact absurd rfl hurl
    · have : (pu r).1 ≠ ρ.pid :=
        hpids (pu r) (List.mem_append.2 (Or.inr (h2 ▸ List.mem_map_of_mem pu hr)))
      simpa [pu] using this

/-- Frame property of `get_price` through one loop iteration: if the
fetched URL never resolves to the tracked row's URL, the invariant holds
afterwards and the tracked row's history is untouched. -/
theorem get_price_frame {F : Oracle} {A1 A2 : List (Nat × Str)}
    {ρ : ProductR} {d : DB} (now : Nat) (qurl : Str)
    (hInv : InvP A1 A2 ρ d)
    (hpids : ∀ a ∈ A1 ++ A2, a.1 ≠ ρ.pid)
    (halias : ∀ f, F qurl = some f → f.finalUrl ≠ ρ.url) :
    InvP A1 A2 ρ (get_price F now d qurl).2 ∧
    histP (get_price F now d qurl).2 ρ.pid = histP d ρ.pid := by
  cases hF : F qurl with
  | none =>
    rw [get_price_of_fails now d (by unfold fetchFailsB; rw [hF])]
    exact ⟨hInv, rfl⟩
  | some f =>
    by_cases ht : pyStrip f.rawTitle = []
    · rw [get_price_of_fails now d (by unfold fetchFailsB; rw [hF]; simp [ht])]
      exact ⟨hInv, rfl⟩
    · cases hp : parsePrice (pyStrip f.rawPrice) with
      | none =>
        rw [get_price_of_fails now d (by unfold fetchFailsB; rw [hF]; simp [hp])]
        exact ⟨hInv, rfl⟩
      | some pr =>
        by_cases hz : pr = 0
        · subst hz
          rw [get_price_of_zero now d hF hp]
          exact ⟨hInv, rfl⟩
        · rw [get_price_success now d hF ht hp hz]
          cases hr : firstProductWithUrl d f.finalUrl with
          | none => exact ⟨hInv, rfl⟩
          | some r =>
            have hrmem : r ∈ d.products := List.mem_of_find?_eq_some hr
            have hrurl : r.url = f.finalUrl := by
              have := List.find?_some hr
              simpa using this
            have hrpid : r.pid ≠ ρ.pid :=
              found_pid_ne hInv hpids hrmem
                (by rw [hrurl]; exact halias f hF)
            constructor
            · have hI : InvP A1 A2 ρ (updateProduct d r.pid (fun q =>
                  { q with title := some (pyStrip f.rawTitle),
                           current_price := some pr, updated_at := now })) :=
                updateProduct_invP hInv (fun h => hrpid h.symm) (fun q => ⟨rfl, rfl⟩)
              obtain ⟨u1, u2, hsplit, h1, h2⟩ := hI
              exact ⟨u1, u2, hsplit, h1, h2⟩
            · show ((d.history ++ [(⟨r.pid, pr, now⟩ : HistR)]).filter
                  (fun h => h.product_id == ρ.pid)) = histP d ρ.pid
              rw [List.filter_append]
              have : (⟨r.pid, pr, now⟩ : HistR).product_id ≠ ρ.pid := hrpid
              simp only [List.filter_cons, List.filter_nil]
              rw [if_neg (by simpa using this)]
              simp [histP]

/-- History filtering ignores `updateProduct` (which touches only the
product rows). -/
theorem histP_updateProduct (d : DB) (k : Nat) (g : ProductR → ProductR) (pid : Nat) :
    histP (updateProduct d k g) pid = histP d pid := rfl

/-- Frame property of one `check_and_alert` iteration over a foreign
product `q`: the tracked row's invariant and history survive, already
collected alerts survive, and any new alert carries `q`'s URL. -/
theorem caStep_frame {F : Oracle} {A1 A2 : List (Nat × Str)} {ρ : ProductR}
    (now : Nat) (sm sw : SendOracle) (em ph : Str)
    (a : List AlertR × DB × List NotifEv) (q : ProductR)
    (hInv : InvP A1 A2 ρ a.2.1)
    (hpids : ∀ x ∈ A1 ++ A2, x.1 ≠ ρ.pid)
    (hqpid : q.pid ≠ ρ.pid)
    (halias : ∀ g, F q.url = some g → g.finalUrl ≠ ρ.url) :
    InvP A1 A2 ρ (caStep F now sm sw em ph a q).2.1 ∧
    histP (caStep F now sm sw em ph a q).2.1 ρ.pid = histP a.2.1 ρ.pid ∧
    (∀ x ∈ a.1, x ∈ (caStep F now sm sw em ph a q).1) ∧
    (∀ x ∈ (caStep F now sm sw em ph a q).1, x ∈ a.1 ∨ x.url = q.url) := by
  obtain ⟨hI, hH⟩ := get_price_frame now q.url hInv hpids halias
  unfold caStep
  rcases hgp : get_price F now a.2.1 q.url with ⟨o, db1⟩
  rw [hgp] at hI hH
  rcases o with _ | ⟨t, pr, ru⟩
  · exact ⟨hI, hH, fun x hx => hx, fun x hx => Or.inl hx⟩
  · simp only []
    by_cases hc : t ≠ [] ∧ pr ≠ 0
    · rw [if_pos hc]
      by_cases hth : pr ≤ q.threshold
      · rw [if_pos hth]
        refine ⟨?_, ?_, ?_, ?_⟩
        · exact updateProduct_invP hI (fun h => hqpid h.symm) (fun r => ⟨rfl, rfl⟩)
        · exact hH
        · intro x hx; exact List.mem_append_left _ hx
        · intro x hx
          rcases List.mem_append.1 hx with hx | hx
          · exact Or.inl hx
          · rcases List.mem_singleton.1 hx with rfl
            exact Or.inr rfl
      · rw [if_neg hth]
        exact ⟨hI, hH, fun x hx => hx, fun x hx => Or.inl hx⟩
    · rw [if_neg hc]
      exact ⟨hI, hH, fun x hx => hx, fun x hx => Or.inl hx⟩

/-- The frame property extended over a run of foreign products. -/
theorem ca_fold_frame {F : Oracle} {A1 A2 : List (Nat × Str)} {ρ : ProductR}
    (now : Nat) (sm sw : SendOracle) (em ph : Str)
    (L : List ProductR) (a : List AlertR × DB × List NotifEv)
    (hInv : InvP A1 A2 ρ a.2.1)
    (hpids : ∀ x ∈ A1 ++ A2, x.1 ≠ ρ.pid)
    (hL : ∀ q ∈ L, q.pid ≠ ρ.pid ∧ q.url ≠ ρ.url ∧
      ∀ g, F q.url = some g → g.finalUrl ≠ ρ.url) :
    InvP A1 A2 ρ (L.foldl (caStep F now sm sw em ph) a).2.1 ∧
    histP (L.foldl (caStep F now sm sw em ph) a).2.1 ρ.pid = histP a.2.1 ρ.pid ∧
    (∀ x ∈ a.1, x ∈ (L.foldl (caStep F now sm sw em ph) a).1) ∧
    (∀ x ∈ (L.foldl (caStep F now sm sw em ph) a).1,
      x ∈ a.1 ∨ x.url ≠ ρ.url) := by
  induction L generalizing a with
  | nil => exact ⟨hInv, rfl, fun x hx => hx, fun x hx => Or.inl hx⟩
  | cons q L ih =>
    obtain ⟨hq1, hq2, hq3⟩ := hL q (by simp)
    obtain ⟨hI, hH, hmono, hnew⟩ := caStep_frame now sm sw em ph a q hInv hpids hq1 hq3
    obtain ⟨hI2, hH2, hmono2, hnew2⟩ :=
      ih (caStep F now sm sw em ph a q) hI (fun q' hq' => hL q' (by simp [hq']))
    rw [List.foldl_cons]
    refine ⟨hI2, hH2.trans hH, fun x hx => hmono2 x (hmono x hx), ?_⟩
    intro x hx
    rcases hnew2 x hx with hx' | hx'
    · rcases hnew x hx' with hx'' | hx''
      · exact Or.inl hx''
      · exact Or.inr (hx'' ▸ hq2)
    · exact Or.inr hx'

/-- The tracked product's own `check_and_alert` iteration, alert branch
(`price <= threshold`): the row gets the new title/price/timestamp, is
deactivated, one history row is appended, and the alert is emitted. -/
theorem caStep_self_le {F : Oracle} {A1 A2 : List (Nat × Str)} {ρ : ProductR}
    {f : FetchRes} {pr : ℚ} (now : Nat) (sm sw : SendOracle) (em ph : Str)
    (a : List AlertR × DB × List NotifEv)
    (hInv : InvP A1 A2 ρ a.2.1)
    (hpids : ∀ x ∈ A1 ++ A2, x.1 ≠ ρ.pid)
    (hurls : ∀ x ∈ A1, x.2 ≠ ρ.url)
    (hF : F ρ.url = some f) (hfin : f.finalUrl = ρ.url)
    (ht : pyStrip f.rawTitle ≠ [])
    (hp : parsePrice (pyStrip f.rawPrice) = some pr) (hz : pr ≠ 0)
    (hth : pr ≤ ρ.threshold) :
    InvP A1 A2 { ρ with title := some (pyStrip f.rawTitle), current_price := some pr,
                        updated_at := now, is_active := false }
      (caStep F now sm sw em ph a ρ).2.1 ∧
    histP (caStep F now sm sw em ph a ρ).2.1 ρ.pid =
      histP a.2.1 ρ.pid ++ [⟨ρ.pid, pr, now⟩] ∧
    (caStep F now sm sw em ph a ρ).1 =
      a.1 ++ [⟨ρ.url, pyStrip f.rawTitle, pr, ρ.threshold⟩] := by
  have hfind : firstProductWithUrl a.2.1 ρ.url = some ρ := find_url_of_invP hInv hurls
  have hsucc := get_price_success now a.2.1 hF ht hp hz
  rw [hfin, hfind] at hsucc
  unfold caStep
  rw [hsucc]
  simp only []
  rw [if_pos ⟨ht, hz⟩, if_pos hth]
  have hI1 : InvP A1 A2
      { ρ with title := some (pyStrip f.rawTitle), current_price := some pr,
               updated_at := now }
      (updateProduct a.2.1 ρ.pid (fun q =>
        { q with title := some (pyStrip f.rawTitle), current_price := some pr,
                 updated_at := now })) :=
    updateProduct_self hInv hpids
  refine ⟨?_, ?_, rfl⟩
  · obtain ⟨u1, u2, hsplit, h1, h2⟩ := hI1
    have hI1' : InvP A1 A2
        { ρ with title := some (pyStrip f.rawTitle), current_price := some pr,
                 updated_at := now }
        { products := (updateProduct a.2.1 ρ.pid (fun q =>
            { q with title := some (pyStrip f.rawTitle), current_price := some pr,
                     updated_at := now })).products,
          history := a.2.1.history ++ [⟨ρ.pid, pr, now⟩],
          settings := a.2.1.settings, nextId := a.2.1.nextId } :=
      ⟨u1, u2, hsplit, h1, h2⟩
    exact updateProduct_self hI1' hpids
  · show ((a.2.1.history ++ [(⟨ρ.pid, pr, now⟩ : HistR)]).filter
        (fun h => h.product_id == ρ.pid)) = _
    rw [List.filter_append]
    simp [histP]

/-- The tracked product's own `check_and_alert` iteration, quiet branch
(`price > threshold`): the row gets the new title/price/timestamp, stays
as it was otherwise, one history row is appended, and no alert is
emitted. -/
theorem caStep_self_gt {F : Oracle} {A1 A2 : List (Nat × Str)} {ρ : ProductR}
    {f : FetchRes} {pr : ℚ} (now : Nat) (sm sw : SendOracle) (em ph : Str)
    (a : List AlertR × DB × List NotifEv)
    (hInv : InvP A1 A2 ρ a.2.1)
    (hpids : ∀ x ∈ A1 ++ A2, x.1 ≠ ρ.pid)
    (hurls : ∀ x ∈ A1, x.2 ≠ ρ.url)
    (hF : F ρ.url = some f) (hfin : f.finalUrl = ρ.url)
    (ht : pyStrip f.rawTitle ≠ [])
    (hp : parsePrice (pyStrip f.rawPrice) = some pr) (hz : pr ≠ 0)
    (hth : ¬ pr ≤ ρ.threshold) :
    InvP A1 A2 { ρ with title := some (pyStrip f.rawTitle), current_price := some pr,
                        updated_at := now }
      (caStep F now sm sw em ph a ρ).2.1 ∧
    histP (caStep F now sm sw em ph a ρ).2.1 ρ.pid =
      histP a.2.1 ρ.pid ++ [⟨ρ.pid, pr, now⟩] ∧
    (caStep F now sm sw em ph a ρ).1 = a.1 := by
  have hfind : firstProductWithUrl a.2.1 ρ.url = some ρ := find_url_of_invP hInv hurls
  have hsucc := get_price_success now a.2.1 hF ht hp hz
  rw [hfin, hfind] at hsucc
  unfold caStep
  rw [hsucc]
  simp only []
  rw [if_pos ⟨ht, hz⟩, if_neg hth]
  have hI1 : InvP A1 A2
      { ρ with title := some (pyStrip f.rawTitle), current_price := some pr,
               updated_at := now }
      (updateProduct a.2.1 ρ.pid (fun q =>
        { q with title := some (pyStrip f.rawTitle), current_price := some pr,
                 updated_at := now })) :=
    updateProduct_self hInv hpids
  refine ⟨?_, ?_, rfl⟩
  · obtain ⟨u1, u2, hsplit, h1, h2⟩ := hI1
    exact ⟨u1, u2, hsplit, h1, h2⟩
  · show ((a.2.1.history ++ [(⟨ρ.pid, pr, now⟩ : HistR)]).filter
        (fun h => h.product_id == ρ.pid)) = _
    rw [List.filter_append]
    simp [histP]

/-- C1 — `check_and_alert` on an active product whose fetch succeeds,
under the amendments: the products' stored URLs and ids are pairwise
distinct, the tracked product's fetch resolves to its own stored URL, and
no other product's fetch resolves to it. Then exactly one history row
carrying the fetched price is appended for the product; if the price is
at most the threshold the row is refreshed and deactivated and its alert
(URL, title, price, threshold) is in the returned list; if the price
exceeds the threshold the row is refreshed but keeps its active flag and
no returned alert carries its URL. -/
theorem C1_check_and_alert {F : Oracle} {A1 A2 : List (Nat × Str)} {ρ : ProductR}
    {d : DB} {f : FetchRes} {pr : ℚ} (now : Nat) (sm sw : SendOracle)
    (hInv : InvP A1 A2 ρ d) (hact : ρ.is_active = true)
    (hpids : ∀ x ∈ A1 ++ A2, x.1 ≠ ρ.pid)
    (hurls : ∀ x ∈ A1 ++ A2, x.2 ≠ ρ.url)
    (halias : ∀ x ∈ A1 ++ A2, ∀ g, F x.2 = some g → g.finalUrl ≠ ρ.url)
    (hF : F ρ.url = some f) (hfin : f.finalUrl = ρ.url)
    (ht : pyStrip f.rawTitle ≠ [])
    (hp : parsePrice (pyStrip f.rawPrice) = some pr) (hz : pr ≠ 0) :
    histP (check_and_alert F now sm sw d).2.1 ρ.pid =
      histP d ρ.pid ++ [⟨ρ.pid, pr, now⟩] ∧
    (pr ≤ ρ.threshold →
      (check_and_alert F now sm sw d).2.1.products.find? (fun r => r.pid == ρ.pid) =
        some { ρ with title := some (pyStrip f.rawTitle), current_price := some pr,
                      updated_at := now, is_active := false } ∧
      (⟨ρ.url, pyStrip f.rawTitle, pr, ρ.threshold⟩ : AlertR) ∈
        (check_and_alert F now sm sw d).1) ∧
    (¬ pr ≤ ρ.threshold →
      (check_and_alert F now sm sw d).2.1.products.find? (fun r => r.pid == ρ.pid) =
        some { ρ with title := some (pyStrip f.rawTitle), current_price := some pr,
                      updated_at := now } ∧
      ∀ x ∈ (check_and_alert F now sm sw d).1, x.url ≠ ρ.url) := by
  obtain ⟨u1, u2, hsplit, h1, h2⟩ := hInv
  have hInv' : InvP A1 A2 ρ d := ⟨u1, u2, hsplit, h1, h2⟩
  have hprops : ∀ q ∈ u1 ++ u2, q.pid ≠ ρ.pid ∧ q.url ≠ ρ.url ∧
      ∀ g, F q.url = some g → g.finalUrl ≠ ρ.url := by
    intro q hq
    have hA : pu q ∈ A1 ++ A2 := by
      rcases List.mem_append.1 hq with hq | hq
      · exact List.mem_append_left _ (h1 ▸ List.mem_map_of_mem pu hq)
      · exact List.mem_append_right _ (h2 ▸ List.mem_map_of_mem pu hq)
    exact ⟨hpids _ hA, hurls _ hA, halias _ hA⟩
  have hfilter : d.products.filter (·.is_active) =
      u1.filter (·.is_active) ++ ρ :: u2.filter (·.is_active) := by
    rw [hsplit, List.filter_append, List.filter_cons, if_pos (by simpa using hact)]
  simp only [check_and_alert]
  rw [hfilter, List.foldl_append, List.foldl_cons]
  obtain ⟨hI1, hH1, hmono1, hnew1⟩ :=
    ca_fold_frame now sm sw (get_notifications d).1 (get_notifications d).2
      (u1.filter (·.is_active)) ([], d, []) hInv' hpids
      (fun q hq => hprops q (List.mem_append_left _ (List.mem_of_mem_filter hq)))
  by_cases hth : pr ≤ ρ.threshold
  · obtain ⟨hI2, hH2, hal2⟩ :=
      caStep_self_le now sm sw (get_notifications d).1 (get_notifications d).2
        (List.foldl (caStep F now sm sw (get_notifications d).1 (get_notifications d).2)
          ([], d, []) (u1.filter (·.is_active)))
        hI1 hpids (fun x hx => hurls x (List.mem_append_left _ hx))
        hF hfin ht hp hz hth
    obtain ⟨hI3, hH3, hmono3, hnew3⟩ :=
      ca_fold_frame now sm sw (get_notifications d).1 (get_notifications d).2
        (u2.filter (·.is_active)) _ hI2 hpids
        (fun q hq => hprops q (List.mem_append_right _ (List.mem_of_mem_filter hq)))
    refine ⟨hH3.trans (hH2.trans (by rw [hH1])), fun _ => ⟨?_, ?_⟩, fun h => absurd hth h⟩
    · exact find_pid_of_invP hI3 hpids
    · refine hmono3 _ ?_
      rw [hal2]
      exact List.mem_append_right _ (by simp)
  · obtain ⟨hI2, hH2, hal2⟩ :=
      caStep_self_gt now sm sw (get_notifications d).1 (get_notifications d).2
        (List.foldl (caStep F now sm sw (get_notifications d).1 (get_notifications d).2)
          ([], d, []) (u1.filter (·.is_active)))
        hI1 hpids (fun x hx => hurls x (List.mem_append_left _ hx))
        hF hfin ht hp hz hth
    obtain ⟨hI3, hH3, hmono3, hnew3⟩ :=
      ca_fold_frame now sm sw (get_notifications d).1 (get_notifications d).2
        (u2.filter (·.is_active)) _ hI2 hpids
        (fun q hq => hprops q (List.mem_append_right _ (List.mem_of_mem_filter hq)))
    refine ⟨hH3.trans (hH2.trans (by rw [hH1])), fun h => absurd h hth, fun _ => ⟨?_, ?_⟩⟩
    · exact find_pid_of_invP hI3 hpids
    · intro x hx
      rcases hnew3 x hx with hx' | hx'
      · rw [hal2] at hx'
        rcases hnew1 x hx' with hx'' | hx''
        · exact absurd hx'' (List.not_mem_nil x)
        · exact hx''
      · exact hx'

/-- Counterexample to C1 as stated: the fetch of the single active
product succeeds (title `T`, price `4500 <= 5000`) but resolves to a URL
that matches no stored row, so the product is alerted and deactivated yet
no history row at all is appended. -/
theorem C1_counterexample :
    (check_and_alert
        (fun u => if u = "u".toList then
          some ⟨"T".toList, "4500".toList, "v".toList⟩ else none)
        7 (fun _ _ _ => true) (fun _ _ _ => true)
        ⟨[⟨1, none, "u".toList, none, 5000, none, true, 0, 0⟩], [], none, 2⟩).1 =
      [⟨"u".toList, "T".toList, 4500, 5000⟩] ∧
    (check_and_alert
        (fun u => if u = "u".toList then
          some ⟨"T".toList, "4500".toList, "v".toList⟩ else none)
        7 (fun _ _ _ => true) (fun _ _ _ => true)
        ⟨[⟨1, none, "u".toList, none, 5000, none, true, 0, 0⟩], [], none, 2⟩).2.1.history =
      [] ∧
    ((check_and_alert
        (fun u => if u = "u".toList then
          some ⟨"T".toList, "4500".toList, "v".toList⟩ else none)
        7 (fun _ _ _ => true) (fun _ _ _ => true)
        ⟨[⟨1, none, "u".toList, none, 5000, none, true, 0, 0⟩], [], none, 2⟩).2.1.products.map
      (·.is_active)) = [false] := by
  decide

/-- Witness for C1 at a concrete input: one product, threshold 5000,
fetched price 4500 resolving to the product's own URL. -/
theorem C1_check_and_alert_witness :
    histP (check_and_alert
        (fun u => if u = "u".toList then
          some ⟨"T".toList, "4500".toList, "u".toList⟩ else none)
        7 (fun _ _ _ => true) (fun _ _ _ => true)
        ⟨[⟨1, none, "u".toList, none, 5000, none, true, 0, 0⟩], [], none, 2⟩).2.1 1 =
      histP ⟨[⟨1, none, "u".toList, none, 5000, none, true, 0, 0⟩], [], none, 2⟩ 1 ++
        [⟨1, 4500, 7⟩] ∧
    ((4500 : ℚ) ≤ 5000 →
      (check_and_alert
          (fun u => if u = "u".toList then
            some ⟨"T".toList, "4500".toList, "u".toList⟩ else none)
          7 (fun _ _ _ => true) (fun _ _ _ => true)
          ⟨[⟨1, none, "u".toList, none, 5000, none, true, 0, 0⟩], [], none, 2⟩).2.1.products.find?
        (fun r => r.pid == 1) =
        some ⟨1, none, "u".toList, some "T".toList, 5000, some 4500, false, 0, 7⟩ ∧
      (⟨"u".toList, "T".toList, 4500, 5000⟩ : AlertR) ∈
        (check_and_alert
            (fun u => if u = "u".toList then
              some ⟨"T".toList, "4500".toList, "u".toList⟩ else none)
            7 (fun _ _ _ => true) (fun _ _ _ => true)
            ⟨[⟨1, none, "u".toList, none, 5000, none, true, 0, 0⟩], [], none, 2⟩).1) ∧
    (¬ (4500 : ℚ) ≤ 5000 →
      (check_and_alert
          (fun u => if u = "u".toList then
            some ⟨"T".toList, "4500".toList, "u".toList⟩ else none)
          7 (fun _ _ _ => true) (fun _ _ _ => true)
          ⟨[⟨1, none, "u".toList, none, 5000, none, true, 0, 0⟩], [], none, 2⟩).2.1.products.find?
        (fun r => r.pid == 1) =
        some ⟨1, none, "u".toList, some "T".toList, 5000, some 4500, true, 0, 7⟩ ∧
      ∀ x ∈ (check_and_alert
          (fun u => if u = "u".toList then
            some ⟨"T".toList, "4500".toList, "u".toList⟩ else none)
          7 (fun _ _ _ => true) (fun _ _ _ => true)
          ⟨[⟨1, none, "u".toList, none, 5000, none, true, 0, 0⟩], [], none, 2⟩).1,
        x.url ≠ "u".toList) :=
  C1_check_and_alert
    (F := fun u => if u = "u".toList then
      some ⟨"T".toList, "4500".toList, "u".toList⟩ else none)
    (ρ := ⟨1, none, "u".toList, none, 5000, none, true, 0, 0⟩)
    (d := ⟨[⟨1, none, "u".toList, none, 5000, none, true, 0, 0⟩], [], none, 2⟩)
    (f := ⟨"T".toList, "4500".toList, "u".toList⟩)
    7 (fun _ _ _ => true) (fun _ _ _ => true)
    ⟨[], [], rfl, rfl, rfl⟩ rfl
    (by simp) (by simp) (by simp)
    rfl rfl (by decide)
    (show parsePrice (pyStrip "4500".toList) = some (4500 : ℚ) by decide)
    (by decide)

/-- The view appended by one `update_all_prices` iteration depends only
on the oracle's answer for the product, never on the accumulated state. -/
theorem uapStep_views (F : Oracle) (now : Nat) (a : List View × DB) (q : ProductR) :
    (uapStep F now a q).1 = a.1 ++ (uapExpected F q).toList := by
  unfold uapStep uapExpected
  cases hF : F q.url with
  | none =>
    rw [get_price_of_fails now a.2 (by unfold fetchFailsB; rw [hF])]
    simp
  | some f =>
    simp only []
    cases hp : parsePrice (pyStrip f.rawPrice) with
    | none =>
      rw [get_price_of_fails now a.2 (by unfold fetchFailsB; rw [hF]; simp [hp])]
      simp
    | some pr =>
      simp only []
      by_cases ht : pyStrip f.rawTitle = []
      · rw [get_price_of_fails now a.2 (by unfold fetchFailsB; rw [hF]; simp [ht])]
        simp [ht]
      · by_cases hz : pr = 0
        · subst hz
          rw [get_price_of_zero now a.2 hF hp, if_neg ht]
          simp
        · rw [get_price_success now a.2 hF ht hp hz]
          simp only []
          rw [if_pos ⟨ht, hz⟩, if_pos ⟨ht, hz⟩]
          simp

/-- The views returned by the `update_all_prices` loop are exactly the
per-product expected views, in order. -/
theorem uap_fold_views (F : Oracle) (now : Nat) (L : List ProductR) (a : List View × DB) :
    (L.foldl (uapStep F now) a).1 = a.1 ++ L.filterMap (uapExpected F) := by
  induction L generalizing a with
  | nil => simp
  | cons q L ih =>
    rw [List.foldl_cons, ih, uapStep_views, List.filterMap_cons]
    cases uapExpected F q <;> simp

/-- Frame property of one `update_all_prices` iteration over a foreign
product: the tracked row survives untouched. -/
theorem uapStep_frame {F : Oracle} {A1 A2 : List (Nat × Str)} {ρ : ProductR}
    (now : Nat) (a : List View × DB) (q : ProductR)
    (hInv : InvP A1 A2 ρ a.2)
    (hpids : ∀ x ∈ A1 ++ A2, x.1 ≠ ρ.pid)
    (hqpid : q.pid ≠ ρ.pid)
    (halias : ∀ g, F q.url = some g → g.finalUrl ≠ ρ.url) :
    InvP A1 A2 ρ (uapStep F now a q).2 := by
  obtain ⟨hI, _⟩ := get_price_frame now q.url hInv hpids halias
  unfold uapStep
  rcases hgp : get_price F now a.2 q.url with ⟨o, db1⟩
  rw [hgp] at hI
  rcases o with _ | ⟨t, pr, ru⟩
  · exact hI
  · simp only []
    by_cases hc : t ≠ [] ∧ pr ≠ 0
    · rw [if_pos hc]
      exact updateProduct_invP hI (fun h => hqpid h.symm) (fun r => ⟨rfl, rfl⟩)
    · rw [if_neg hc]
      exact hI

/-- The frame property extended over a run of foreign products. -/
theorem uap_fold_frame {F : Oracle} {A1 A2 : List (Nat × Str)} {ρ : ProductR}
    (now : Nat) (L : List ProductR) (a : List View × DB)
    (hInv : InvP A1 A2 ρ a.2)
    (hpids : ∀ x ∈ A1 ++ A2, x.1 ≠ ρ.pid)
    (hL : ∀ q ∈ L, q.pid ≠ ρ.pid ∧ ∀ g, F q.url = some g → g.finalUrl ≠ ρ.url) :
    InvP A1 A2 ρ (L.foldl (uapStep F now) a).2 := by
  induction L generalizing a with
  | nil => exact hInv
  | cons q L ih =>
    obtain ⟨hq1, hq2⟩ := hL q (by simp)
    rw [List.foldl_cons]
    exact ih (uapStep F now a q) (uapStep_frame now a q hInv hpids hq1 hq2)
      (fun q' hq' => hL q' (by simp [hq']))

/-- An expected view carries the pid of the product it was built from. -/
theorem uapExpected_pid {F : Oracle} {q : ProductR} {v : View}
    (h : uapExpected F q = some v) : v.pid = q.pid := by
  unfold uapExpected at h
  cases hF : F q.url with
  | none => rw [hF] at h; exact absurd h (by simp)
  | some f =>
    rw [hF] at h
    simp only [] at h
    cases hp : parsePrice (pyStrip f.rawPrice) with
    | none => rw [hp] at h; exact absurd h (by simp)
    | some pr =>
      rw [hp] at h
      simp only [] at h
      by_cases hc : pyStrip f.rawTitle ≠ [] ∧ pr ≠ 0
      · rw [if_pos hc] at h
        injection h with h
        rw [← h]
      · rw [if_neg hc] at h
        exact absurd h (by simp)

/-- An ineffective fetch produces no expected view. -/
theorem uapExpected_none {F : Oracle} {q : ProductR}
    (h : fetchIneffectiveB F q.url = true) : uapExpected F q = none := by
  unfold fetchIneffectiveB fetchFailsB at h
  unfold uapExpected
  cases hF : F q.url with
  | none => rfl
  | some f =>
    rw [hF] at h
    simp only [Bool.or_eq_true, beq_iff_eq, Option.isNone_iff_eq_none] at h
    simp only []
    rcases h with (h | h) | h
    · cases hp : parsePrice (pyStrip f.rawPrice) <;> simp [hp, h]
    · rw [h]
    · rw [h]
      simp

/-- C4 — `update_all_prices`, amended: the loop runs over every active
product regardless of owner, and the per-row frame holds provided no
other product's fetch resolves to the tracked row's URL and the stored
ids are pairwise distinct. The returned list is exactly the expected view
of each active product whose fetch fully succeeds, in order; an active
product whose fetch is ineffective keeps its entire row — price, title,
timestamp and active flag — unchanged and contributes no view. -/
theorem C4_update_all_prices {F : Oracle} {A1 A2 : List (Nat × Str)} {ρ : ProductR}
    {d : DB} (now : Nat)
    (hInv : InvP A1 A2 ρ d) (hact : ρ.is_active = true)
    (hpids : ∀ x ∈ A1 ++ A2, x.1 ≠ ρ.pid)
    (halias : ∀ x ∈ A1 ++ A2, ∀ g, F x.2 = some g → g.finalUrl ≠ ρ.url)
    (hfail : fetchIneffectiveB F ρ.url = true) :
    (update_all_prices F now d).1 =
      (d.products.filter (·.is_active)).filterMap (uapExpected F) ∧
    (update_all_prices F now d).2.products.find? (fun r => r.pid == ρ.pid) =
      some ρ ∧
    ∀ v ∈ (update_all_prices F now d).1, v.pid ≠ ρ.pid := by
  obtain ⟨u1, u2, hsplit, h1, h2⟩ := hInv
  have hInv' : InvP A1 A2 ρ d := ⟨u1, u2, hsplit, h1, h2⟩
  have hprops : ∀ q ∈ u1 ++ u2, q.pid ≠ ρ.pid ∧
      ∀ g, F q.url = some g → g.finalUrl ≠ ρ.url := by
    intro q hq
    have hA : pu q ∈ A1 ++ A2 := by
      rcases List.mem_append.1 hq with hq | hq
      · exact List.mem_append_left _ (h1 ▸ List.mem_map_of_mem pu hq)
      · exact List.mem_append_right _ (h2 ▸ List.mem_map_of_mem pu hq)
    exact ⟨hpids _ hA, halias _ hA⟩
  have hviews : (update_all_prices F now d).1 =
      (d.products.filter (·.is_active)).filterMap (uapExpected F) := by
    unfold update_all_prices
    rw [uap_fold_views]
    simp
  refine ⟨hviews, ?_, ?_⟩
  · have hfilter : d.products.filter (·.is_active) =
        u1.filter (·.is_active) ++ ρ :: u2.filter (·.is_active) := by
      rw [hsplit, List.filter_append, List.filter_cons, if_pos (by simpa using hact)]
    unfold update_all_prices
    rw [hfilter, List.foldl_append, List.foldl_cons]
    have hI1 : InvP A1 A2 ρ
        (List.foldl (uapStep F now) ([], d) (u1.filter (·.is_active))).2 :=
      uap_fold_frame now (u1.filter (·.is_active)) ([], d) hInv' hpids
        (fun q hq => hprops q (List.mem_append_left _ (List.mem_of_mem_filter hq)))
    rw [uapStep_noop now hfail]
    have hI3 := uap_fold_frame now (u2.filter (·.is_active)) _ hI1 hpids
      (fun q hq => hprops q (List.mem_append_right _ (List.mem_of_mem_filter hq)))
    exact find_pid_of_invP hI3 hpids
  · intro v hv
    rw [hviews] at hv
    obtain ⟨q, hq, hvq⟩ := List.mem_filterMap.1 hv
    have hqmem : q ∈ d.products := List.mem_of_mem_filter hq
    rw [hsplit] at hqmem
    have hvpid := uapExpected_pid hvq
    rcases List.mem_append.1 hqmem with hq' | hq'
    · rw [hvpid]; exact (hprops q (List.mem_append_left _ hq')).1
    · rcases List.mem_cons.1 hq' with rfl | hq'
      · rw [uapExpected_none hfail] at hvq
        exact absurd hvq (by simp)
      · rw [hvpid]; exact (hprops q (List.mem_append_right _ hq')).1

/-- Counterexample to C4 as stated: product 1's fetch fails outright, yet
its stored price and timestamp change, because product 2's fetch
redirects to product 1's URL and `get_price` persists against the
resolved URL. -/
theorem C4_counterexample :
    ((update_all_prices
        (fun u => if u = "w".toList then
          some ⟨"T".toList, "9".toList, "u".toList⟩ else none)
        7 ⟨[⟨1, none, "u".toList, none, 100, none, true, 0, 0⟩,
            ⟨2, none, "w".toList, none, 100, none, true, 0, 0⟩], [], none, 3⟩).2.products.map
      (fun p => (p.pid, p.current_price, p.updated_at))) =
      [(1, some 9, 7), (2, some 9, 7)] ∧
    (fun u => if u = "w".toList then
      some (⟨"T".toList, "9".toList, "u".toList⟩ : FetchRes) else none)
      "u".toList = none := by
  decide

/-- Witness for C4 at a concrete input: product 1's fetch fails, product
2's fetch succeeds against its own URL. -/
theorem C4_update_all_prices_witness :
    (update_all_prices
        (fun u => if u = "w".toList then
          some ⟨"T".toList, "9".toList, "w".toList⟩ else none)
        7 ⟨[⟨1, none, "u".toList, none, 100, none, true, 0, 0⟩,
            ⟨2, none, "w".toList, none, 100, none, true, 0, 0⟩], [], none, 3⟩).1 =
      ((⟨[⟨1, none, "u".toList, none, 100, none, true, 0, 0⟩,
          ⟨2, none, "w".toList, none, 100, none, true, 0, 0⟩], [], none, 3⟩ :
          DB).products.filter (·.is_active)).filterMap
        (uapExpected (fun u => if u = "w".toList then
          some ⟨"T".toList, "9".toList, "w".toList⟩ else none)) ∧
    (update_all_prices
        (fun u => if u = "w".toList then
          some ⟨"T".toList, "9".toList, "w".toList⟩ else none)
        7 ⟨[⟨1, none, "u".toList, none, 100, none, true, 0, 0⟩,
            ⟨2, none, "w".toList, none, 100, none, true, 0, 0⟩], [], none, 3⟩).2.products.find?
      (fun r => r.pid == 1) =
      some ⟨1, none, "u".toList, none, 100, none, true, 0, 0⟩ ∧
    ∀ v ∈ (update_all_prices
        (fun u => if u = "w".toList then
          some ⟨"T".toList, "9".toList, "w".toList⟩ else none)
        7 ⟨[⟨1, none, "u".toList, none, 100, none, true, 0, 0⟩,
            ⟨2, none, "w".toList, none, 100, none, true, 0, 0⟩], [], none, 3⟩).1,
      v.pid ≠ 1 :=
  C4_update_all_prices
    (F := fun u => if u = "w".toList then
      some ⟨"T".toList, "9".toList, "w".toList⟩ else none)
    (ρ := ⟨1, none, "u".toList, none, 100, none, true, 0, 0⟩)
    (d := ⟨[⟨1, none, "u".toList, none, 100, none, true, 0, 0⟩,
            ⟨2, none, "w".toList, none, 100, none, true, 0, 0⟩], [], none, 3⟩)
    7 ⟨[], [⟨2, none, "w".toList, none, 100, none, true, 0, 0⟩], rfl, rfl, rfl⟩
    rfl (by decide)
    (fun x hx g hg => by
      simp only [List.nil_append, List.map_cons, List.map_nil,
        List.mem_singleton] at hx
      subst hx
      have hg' : some (⟨"T".toList, "9".toList, "w".toList⟩ : FetchRes) = some g := hg
      cases hg'
      decide)
    (by decide)

/-- Counterexample to C3 as stated: on a fresh insert the stored identity
URL is the raw resolved URL, which differs from its canonicalized form. -/
theorem C3_counterexample :
    ((add_product
        (fun _ => some ⟨"T".toList, "9".toList, "amazon.com/dp/B012345678".toList⟩)
        7 ⟨[], [], none, 1⟩ "x".toList 100).2.products.map (·.url)) =
      ["amazon.com/dp/B012345678".toList] ∧
    canonicalize_amazon_url "amazon.com/dp/B012345678".toList ≠
      "amazon.com/dp/B012345678".toList := by
  decide

/-- Witness for C3 at a concrete input: an empty database, so the insert
path runs (and the update path holds vacuously). -/
theorem C3_add_product_success_witness :
    (∀ p, firstProductWithUrl (⟨[], [], none, 1⟩ : DB) "u".toList = some p →
      p.url = "u".toList ∧
      add_product (fun _ => some ⟨"T".toList, "9".toList, "u".toList⟩) 7
          ⟨[], [], none, 1⟩ "x".toList 100 =
        (some ⟨p.pid, p.url, pyStrip "T".toList, 100, 9⟩,
         { products := ([] : List ProductR).map (fun q =>
             if q.pid == p.pid then
               { q with title := some (pyStrip "T".toList), threshold := 100,
                        current_price := some (9 : ℚ), is_active := true,
                        updated_at := 7 }
             else q),
           history := [] ++ [⟨p.pid, 9, 7⟩, ⟨p.pid, 9, 7⟩],
           settings := none, nextId := 1 })) ∧
    (firstProductWithUrl (⟨[], [], none, 1⟩ : DB) "u".toList = none →
      add_product (fun _ => some ⟨"T".toList, "9".toList, "u".toList⟩) 7
          ⟨[], [], none, 1⟩ "x".toList 100 =
        (some ⟨1, "u".toList, pyStrip "T".toList, 100, 9⟩,
         { products := [] ++
             [⟨1, none, "u".toList, some (pyStrip "T".toList), 100, some (9 : ℚ),
               true, 7, 7⟩],
           history := [] ++ [⟨1, 9, 7⟩],
           settings := none, nextId := 1 + 1 })) :=
  C3_add_product_success (fun _ => some ⟨"T".toList, "9".toList, "u".toList⟩) 7
    ⟨[], [], none, 1⟩ "x".toList 100 ⟨"T".toList, "9".toList, "u".toList⟩ 9
    rfl (by decide) (by decide) (by decide)

/-! ### The resolver's regex list equals the spec's pattern list (C7) -/

/-- Head-matching a lowercase literal case-insensitively is the spec's
lower-cased prefix comparison. -/
theorem takeLitCI_eq : ∀ (lit : Str), lit.map Char.toLower = lit → ∀ (s : Str),
    takeLitCI lit s =
      if (s.take lit.length).map Char.toLower = lit ∧ lit.length ≤ s.length then
        some (s.drop lit.length)
      else none := by
  intro lit
  induction lit with
  | nil =>
    intro _ s
    rw [if_pos ⟨rfl, Nat.zero_le _⟩]
    rfl
  | cons l ls ih =>
    intro hlit s
    rw [List.map_cons] at hlit
    injection hlit with hl hls
    cases s with
    | nil =>
      rw [if_neg]
      · rfl
      · rintro ⟨-, h2⟩
        exact absurd h2 (by simp)
    | cons c cs =>
      unfold takeLitCI
      by_cases hcc : charCI l c = true
      · rw [if_pos hcc, ih hls cs]
        have hceq : c.toLower = l := by
          unfold charCI at hcc
          have h := eq_of_beq hcc
          rw [hl] at h
          exact h.symm
        by_cases hcond : (cs.take ls.length).map Char.toLower = ls ∧ ls.length ≤ cs.length
        · have hout : ((c :: cs).take (l :: ls).length).map Char.toLower = l :: ls ∧
              (l :: ls).length ≤ (c :: cs).length := by
            refine ⟨?_, Nat.succ_le_succ hcond.2⟩
            rw [List.length_cons, List.take_succ_cons, List.map_cons, hceq, hcond.1]
          rw [if_pos hcond, if_pos hout]
          rfl
        · have hout : ¬(((c :: cs).take (l :: ls).length).map Char.toLower = l :: ls ∧
              (l :: ls).length ≤ (c :: cs).length) := by
            rintro ⟨h1, h2⟩
            refine hcond ⟨?_, Nat.le_of_succ_le_succ h2⟩
            rw [List.length_cons, List.take_succ_cons, List.map_cons] at h1
            injection h1 with _ h1'
          rw [if_neg hcond, if_neg hout]
      · rw [if_neg hcc, if_neg]
        rintro ⟨h1, -⟩
        rw [List.length_cons, List.take_succ_cons, List.map_cons] at h1
        injection h1 with h1a _
        exact hcc (by simp [charCI, hl, h1a])

/-- `<lit>([A-Z0-9]{10})` for a lowercase literal is the spec's
literal-then-id pattern. -/
theorem matchLitAsin_eq_spec (lit : Str) (hlit : lit.map Char.toLower = lit) (s : Str) :
    matchLitAsin lit s = specLitIdAt lit s := by
  unfold matchLitAsin specLitIdAt specIdAt
  rw [takeLitCI_eq lit hlit s]
  by_cases h : (s.take lit.length).map Char.toLower = lit ∧ lit.length ≤ s.length
  · rw [if_pos h, if_pos h]
  · rw [if_neg h, if_neg h]

/-- `/[^/]+/dp/([A-Z0-9]{10})` is the spec's slug pattern. -/
theorem matchSlugDpAt_eq_spec (x : Str) : specSlugIdAt x = matchSlugDpAt x := by
  unfold specSlugIdAt matchSlugDpAt
  split
  · next rest =>
    rw [matchLitAsin_eq_spec "/dp/".toList (by decide)]
  · rfl

/-- `re.search` only depends on the matcher pointwise. -/
theorem reSearch_congr {m1 m2 : Str → Option Str} (h : ∀ x, m1 x = m2 x) (s : Str) :
    reSearch m1 s = reSearch m2 s := by
  induction s with
  | nil => exact h []
  | cons c t ih =>
    unfold reSearch
    rw [h (c :: t), ih]

/-- The spec's leftmost scan of one pattern is `re.search` of any
pointwise-equal matcher. -/
theorem specScan_eq (p : SpecPat) (m : Str → Option Str)
    (hm : ∀ x, specPatAt p x = m x) (s : Str) : specScan p s = reSearch m s := by
  induction s with
  | nil => exact hm []
  | cons c t ih =>
    unfold specScan reSearch
    rw [hm (c :: t), ih]

/-- The spec's ordered pattern search coincides with the code's
`ASIN_REGEXES` loop. -/
theorem specFindId_eq_searchAsin (path : Str) : specFindId path = searchAsin path := by
  have horn : ∀ (t : Unit → Option Str),
      Option.orElse none t = t () := fun t => rfl
  have hassoc : ∀ (x : Option Str) (f g : Unit → Option Str),
      Option.orElse (Option.orElse x f) g =
        Option.orElse x (fun _ => Option.orElse (f ()) g) := by
    intro x f g
    cases x <;> rfl
  have h1 : specScan (.lit "/dp/".toList) path = reSearch matchDpAt path :=
    specScan_eq (.lit "/dp/".toList) matchDpAt
      (fun x => (matchLitAsin_eq_spec "/dp/".toList (by decide) x).symm) path
  have h2 : specScan (.lit "/gp/product/".toList) path = reSearch matchGpProductAt path :=
    specScan_eq (.lit "/gp/product/".toList) matchGpProductAt
      (fun x => (matchLitAsin_eq_spec "/gp/product/".toList (by decide) x).symm) path
  have h3 : specScan (.lit "/gp/aw/d/".toList) path = reSearch matchGpAwDAt path :=
    specScan_eq (.lit "/gp/aw/d/".toList) matchGpAwDAt
      (fun x => (matchLitAsin_eq_spec "/gp/aw/d/".toList (by decide) x).symm) path
  have h4 : specScan (.lit "/product/".toList) path = reSearch matchProductAt path :=
    specScan_eq (.lit "/product/".toList) matchProductAt
      (fun x => (matchLitAsin_eq_spec "/product/".toList (by decide) x).symm) path
  have h5 : specScan .slugDp path = reSearch matchSlugDpAt path :=
    specScan_eq .slugDp matchSlugDpAt (fun x => matchSlugDpAt_eq_spec x) path
  unfold specFindId specPatList searchAsin
  rw [List.foldl_cons, List.foldl_cons, List.foldl_cons, List.foldl_cons,
      List.foldl_cons, List.foldl_nil]
  rw [hassoc, hassoc, hassoc, hassoc]
  rw [horn, h1, h2, h3, h4, h5]

/-- C7 (amended): `canonicalize_amazon_url` equals the claim's
reconstruction once an absent scheme defaults to `https`, an absent host
defaults (on a pattern match) to `www.amazon.com`, and the no-match
re-join follows CPython's `uses_netloc` rule. -/
theorem C7_canonicalize_spec (u : Str) :
    canonicalize_amazon_url u = specCanonAmended u := by
  unfold canonicalize_amazon_url specCanonAmended
  cases hP : pyUrlparse u with
  | error e => rfl
  | ok p =>
    simp only []
    rw [specFindId_eq_searchAsin]
    have hs' : (if p.scheme = [] then "https".toList else p.scheme) ≠ [] := by
      by_cases h : p.scheme = [] <;> simp [h]
    cases hA : searchAsin p.path with
    | none =>
      simp only []
      rw [pyUrlunparse_eq]
      unfold pyUrlunsplit
      simp only []
      by_cases hc : p.netloc ≠ [] ∨
          ((if p.scheme = [] then "https".toList else p.scheme) ∈ usesNetloc ∧
            p.path.take 2 ≠ ['/', '/'])
      · have hc' : p.netloc ≠ [] ∨
            ((if p.scheme = [] then "https".toList else p.scheme) ≠ [] ∧
             (if p.scheme = [] then "https".toList else p.scheme) ∈ usesNetloc ∧
             p.path.take 2 ≠ ['/', '/']) := by
          rcases hc with h | h
          · exact Or.inl h
          · exact Or.inr ⟨hs', h⟩
        rw [if_pos hc', if_pos hc, if_pos hs',
            if_neg (show ¬(([] : Str) ≠ []) from fun h => h rfl),
            if_neg (show ¬(([] : Str) ≠ []) from fun h => h rfl),
            List.append_assoc]
        rfl
      · have hc2 : ¬(p.netloc ≠ [] ∨
            ((if p.scheme = [] then "https".toList else p.scheme) ≠ [] ∧
             (if p.scheme = [] then "https".toList else p.scheme) ∈ usesNetloc ∧
             p.path.take 2 ≠ ['/', '/'])) := by
          intro h
          apply hc
          rcases h with h | ⟨-, h2, h3⟩
          · exact Or.inl h
          · exact Or.inr ⟨h2, h3⟩
        rw [if_neg hc2, if_neg hc, if_pos hs',
            if_neg (show ¬(([] : Str) ≠ []) from fun h => h rfl),
            if_neg (show ¬(([] : Str) ≠ []) from fun h => h rfl)]
    | some asin =>
      simp only []
      rw [pyUrlunparse_eq]
      unfold pyUrlunsplit
      simp only []
      have hn' : (if p.netloc = [] then "www.amazon.com".toList else p.netloc) ≠ [] := by
        by_cases h : p.netloc = [] <;> simp [h]
      rw [if_pos (Or.inl hn'), if_pos hs',
          if_neg (show ¬(([] : Str) ≠ []) from fun h => h rfl),
          if_neg (show ¬(([] : Str) ≠ []) from fun h => h rfl),
          if_neg (show ¬("/dp/".toList ++ asin ≠ [] ∧
            ("/dp/".toList ++ asin).take 1 ≠ ['/']) from fun h => h.2 rfl),
          List.append_assoc]
      rfl

/-- Counterexample to C7 as stated: a schemeless, hostless Amazon URL with
no product-id pattern. The code re-joins with the defaulted `https` scheme
under the `uses_netloc` rule, producing `https:///…`; the claim's
reconstruction keeps the bare path. -/
theorem C7_counterexample :
    canonicalize_amazon_url "www.amazon.com/gp/foo?x=1".toList ≠
      specCanonClaim "www.amazon.com/gp/foo?x=1".toList := by
  decide

/-! ### Character-level facts about `toLower`/`toUpper` (ASCII) -/

theorem char_toNat_ofNat {n : Nat} (h : n.isValidChar) : (Char.ofNat n).toNat = n := by
  simp [Char.ofNat, h, Char.ofNatAux, Char.toNat, UInt32.toNat]

theorem char_ne {c d : Char} (h : c.toNat ≠ d.toNat) : c ≠ d :=
  fun he => h (congrArg Char.toNat he)

theorem toLower_eq (c : Char) :
    c.toLower = if c.toNat ≥ 65 ∧ c.toNat ≤ 90 then Char.ofNat (c.toNat + 32) else c := rfl

theorem toUpper_eq (c : Char) :
    c.toUpper = if c.toNat ≥ 97 ∧ c.toNat ≤ 122 then Char.ofNat (c.toNat - 32) else c := rfl

theorem isUpper_eq (c : Char) :
    c.isUpper = (decide (c.toNat ≥ 65) && decide (c.toNat ≤ 90)) := rfl

theorem isLower_eq (c : Char) :
    c.isLower = (decide (c.toNat ≥ 97) && decide (c.toNat ≤ 122)) := rfl

theorem isDigit_eq (c : Char) :
    c.isDigit = (decide (c.toNat ≥ 48) && decide (c.toNat ≤ 57)) := rfl

theorem toLower_toNat_big {c : Char} (h : c.toNat ≥ 65 ∧ c.toNat ≤ 90) :
    c.toLower.toNat = c.toNat + 32 := by
  rw [toLower_eq, if_pos h, char_toNat_ofNat (Or.inl (by omega))]

theorem toUpper_toNat_low {c : Char} (h : c.toNat ≥ 97 ∧ c.toNat ≤ 122) :
    c.toUpper.toNat = c.toNat - 32 := by
  rw [toUpper_eq, if_pos h, char_toNat_ofNat (Or.inl (by omega))]

theorem toLower_idem (c : Char) : c.toLower.toLower = c.toLower := by
  by_cases h : c.toNat ≥ 65 ∧ c.toNat ≤ 90
  · have h1 : c.toLower.toNat = c.toNat + 32 := toLower_toNat_big h
    rw [toLower_eq c.toLower, if_neg (by omega)]
  · rw [toLower_eq c, if_neg h]
    rw [toLower_eq c, if_neg h]

theorem toUpper_idem (c : Char) : c.toUpper.toUpper = c.toUpper := by
  by_cases h : c.toNat ≥ 97 ∧ c.toNat ≤ 122
  · have h1 : c.toUpper.toNat = c.toNat - 32 := toUpper_toNat_low h
    rw [toUpper_eq c.toUpper, if_neg (by omega)]
  · rw [toUpper_eq c, if_neg h]
    rw [toUpper_eq c, if_neg h]

theorem toLower_inv {c d : Char} (hd : d.toNat < 97 ∨ 122 < d.toNat)
    (h : c.toLower = d) : c = d := by
  by_cases hc : c.toNat ≥ 65 ∧ c.toNat ≤ 90
  · exfalso
    have h1 : c.toLower.toNat = c.toNat + 32 := toLower_toNat_big hc
    rw [h] at h1
    omega
  · rw [toLower_eq, if_neg hc] at h
    exact h

theorem isAlpha_of_toNat {c : Char}
    (h : (65 ≤ c.toNat ∧ c.toNat ≤ 90) ∨ (97 ≤ c.toNat ∧ c.toNat ≤ 122)) :
    c.isAlpha = true := by
  rw [show c.isAlpha = (c.isUpper || c.isLower) from rfl, isUpper_eq, isLower_eq]
  rcases h with h | h <;> simp [h.1, h.2]

theorem toNat_of_isAlpha {c : Char} (h : c.isAlpha = true) :
    (65 ≤ c.toNat ∧ c.toNat ≤ 90) ∨ (97 ≤ c.toNat ∧ c.toNat ≤ 122) := by
  rw [show c.isAlpha = (c.isUpper || c.isLower) from rfl, isUpper_eq, isLower_eq] at h
  simp only [Bool.or_eq_true, Bool.and_eq_true, decide_eq_true_eq] at h
  rcases h with h | h
  · exact Or.inl h
  · exact Or.inr h

theorem toLower_isAlpha {c : Char} (h : c.isAlpha = true) : c.toLower.isAlpha = true := by
  rcases toNat_of_isAlpha h with h | h
  · exact isAlpha_of_toNat (Or.inr (by rw [toLower_toNat_big ⟨h.1, h.2⟩]; omega))
  · rw [toLower_eq, if_neg (by omega)]
    exact isAlpha_of_toNat (Or.inr h)

theorem toUpper_isAlnum {c : Char} (h : isAlnumAscii c = true) :
    isAlnumAscii c.toUpper = true := by
  unfold isAlnumAscii at h ⊢
  simp only [Bool.or_eq_true] at h ⊢
  rcases h with h | h
  · rcases toNat_of_isAlpha h with h | h
    · rw [toUpper_eq, if_neg (by omega)]
      exact Or.inl (isAlpha_of_toNat (Or.inl h))
    · left
      exact isAlpha_of_toNat (Or.inl (by rw [toUpper_toNat_low ⟨h.1, h.2⟩]; omega))
  · rw [isDigit_eq] at h
    simp only [Bool.and_eq_true, decide_eq_true_eq] at h
    rw [toUpper_eq, if_neg (by omega)]
    right
    rw [isDigit_eq]
    simp [h.1, h.2]

theorem toLower_schemeChar {c : Char} (h : schemeCharB c = true) :
    schemeCharB c.toLower = true := by
  unfold schemeCharB at h ⊢
  simp only [Bool.or_eq_true, beq_iff_eq] at h ⊢
  rcases h with (((h | h) | h) | h) | h
  · exact Or.inl (Or.inl (Or.inl (Or.inl (toLower_isAlpha h))))
  · rw [isDigit_eq] at h
    simp only [Bool.and_eq_true, decide_eq_true_eq] at h
    rw [toLower_eq, if_neg (by omega)]
    refine Or.inl (Or.inl (Or.inl (Or.inr ?_)))
    rw [isDigit_eq]
    simp [h.1, h.2]
  · subst h; exact Or.inl (Or.inl (Or.inr rfl))
  · subst h; exact Or.inl (Or.inr rfl)
  · subst h; exact Or.inr rfl

theorem schemeChar_toNat {c : Char} (h : schemeCharB c = true) :
    43 ≤ c.toNat ∧ c.toNat ≤ 122 ∧ c.toNat ≠ 47 ∧ c.toNat ≠ 58 := by
  unfold schemeCharB at h
  simp only [Bool.or_eq_true, beq_iff_eq] at h
  rcases h with (((h | h) | h) | h) | h
  · rcases toNat_of_isAlpha h with h | h <;> omega
  · rw [isDigit_eq] at h
    simp only [Bool.and_eq_true, decide_eq_true_eq] at h
    omega
  · subst h; decide
  · subst h; decide
  · subst h; decide

theorem alnum_toNat {c : Char} (h : isAlnumAscii c = true) :
    (48 ≤ c.toNat ∧ c.toNat ≤ 57) ∨ (65 ≤ c.toNat ∧ c.toNat ≤ 90) ∨
      (97 ≤ c.toNat ∧ c.toNat ≤ 122) := by
  unfold isAlnumAscii at h
  simp only [Bool.or_eq_true] at h
  rcases h with h | h
  · rcases toNat_of_isAlpha h with h | h
    · exact Or.inr (Or.inl h)
    · exact Or.inr (Or.inr h)
  · rw [isDigit_eq] at h
    simp only [Bool.and_eq_true, decide_eq_true_eq] at h
    exact Or.inl h

/-! ### Position analysis of `re.search('/dp/…')` over a canonical URL -/

theorem charCI_slash_ne {c : Char} (h : c ≠ '/') : charCI '/' c = false := by
  by_contra hb
  rw [Bool.not_eq_false] at hb
  have h2 := eq_of_beq hb
  have h3 : c.toLower = '/' := by
    rw [← h2]
    rfl
  exact h (toLower_inv (by decide) h3)

theorem takeLitCI_cons_pos {l c : Char} {ls cs : Str} (h : charCI l c = true) :
    takeLitCI (l :: ls) (c :: cs) = takeLitCI ls cs := by
  show (if charCI l c = true then takeLitCI ls cs else none) = takeLitCI ls cs
  rw [if_pos h]

theorem takeLitCI_cons_neg {l c : Char} {ls cs : Str} (h : charCI l c = false) :
    takeLitCI (l :: ls) (c :: cs) = none := by
  show (if charCI l c = true then takeLitCI ls cs else none) = none
  rw [if_neg (by simp [h])]

theorem matchDpAt_none_of_head {c : Char} (hc : c ≠ '/') (t : Str) :
    matchDpAt (c :: t) = none := by
  unfold matchDpAt matchLitAsin
  rw [show takeLitCI "/dp/".toList (c :: t) = none from
    takeLitCI_cons_neg (charCI_slash_ne hc)]

theorem matchDpAt_slashslash (s : Str) : matchDpAt ('/' :: '/' :: s) = none := rfl

theorem matchDpAt_slash_netloc {n : Str} (hn : ∀ c ∈ n, c ≠ '/') (X : Str) :
    matchDpAt ('/' :: (n ++ '/' :: 'd' :: 'p' :: '/' :: X)) = none := by
  have key : takeLitCI "/dp/".toList ('/' :: (n ++ '/' :: 'd' :: 'p' :: '/' ::X)) = none ∨
      takeLitCI "/dp/".toList ('/' :: (n ++ '/' :: 'd' :: 'p' :: '/' ::X)) =
        some ('d' :: 'p' :: '/' ::X) := by
    rw [show takeLitCI "/dp/".toList ('/' :: (n ++ '/' :: 'd' :: 'p' :: '/' ::X)) =
      takeLitCI ('d' :: 'p' :: '/' ::([] : Str)) (n ++ '/' :: 'd' :: 'p' :: '/' ::X) from
      takeLitCI_cons_pos (by decide)]
    cases n with
    | nil => exact Or.inl (takeLitCI_cons_neg (by decide))
    | cons h1 t1 =>
      rw [List.cons_append]
      by_cases c1 : charCI 'd' h1 = true
      · rw [takeLitCI_cons_pos c1]
        cases t1 with
        | nil => exact Or.inl (takeLitCI_cons_neg (by decide))
        | cons h2 t2 =>
          rw [List.cons_append]
          by_cases c2 : charCI 'p' h2 = true
          · rw [takeLitCI_cons_pos c2]
            cases t2 with
            | nil =>
              rw [List.nil_append, takeLitCI_cons_pos (by decide)]
              exact Or.inr rfl
            | cons h3 t3 =>
              rw [List.cons_append]
              exact Or.inl (takeLitCI_cons_neg
                (charCI_slash_ne (hn h3 (by simp))))
          · exact Or.inl (takeLitCI_cons_neg (by simpa using c2))
      · exact Or.inl (takeLitCI_cons_neg (by simpa using c1))
  unfold matchDpAt matchLitAsin
  rcases key with hk | hk
  · rw [hk]
  · rw [hk]
    simp only []
    rw [if_neg]
    rintro ⟨-, hall⟩
    rw [show ('d' :: 'p' :: '/' ::X).take 10 = 'd' :: 'p' :: '/' ::(X.take 7) from rfl] at hall
    simp only [List.all_cons, Bool.and_eq_true] at hall
    exact absurd hall.2.2.1 (by decide)

theorem matchDpAt_dp_head {X : Str} (h10 : X.length = 10)
    (hall : X.all isAlnumAscii = true) :
    matchDpAt ('/' :: 'd' :: 'p' :: '/' ::X) = some (X.map Char.toUpper) := by
  unfold matchDpAt matchLitAsin
  rw [show takeLitCI "/dp/".toList ('/' :: 'd' :: 'p' :: '/' ::X) = some X from rfl]
  simp only []
  have htake : X.take 10 = X := by rw [← h10, List.take_length]
  rw [htake, if_pos ⟨h10, hall⟩]

theorem reSearch_append {m : Str → Option Str} (pre : Str) :
    ∀ (rest : Str), (∀ s2, s2 ≠ [] → s2 <:+ pre → m (s2 ++ rest) = none) →
    reSearch m (pre ++ rest) = reSearch m rest := by
  induction pre with
  | nil => intro rest _; rfl
  | cons c t ih =>
    intro rest h
    have h0 : m (c :: (t ++ rest)) = none := by
      have h1 := h (c :: t) (by simp) (List.suffix_refl _)
      rwa [List.cons_append] at h1
    show (match m (c :: (t ++ rest)) with
          | some r => some r
          | none => reSearch m (t ++ rest)) = reSearch m rest
    rw [h0]
    exact ih rest (fun s2 hne hsuf => h s2 hne (hsuf.trans (List.suffix_cons c t)))

theorem reSearch_step {m : Str → Option Str} {c : Char} {t : Str}
    (hc : m (c :: t) = none) : reSearch m (c :: t) = reSearch m t := by
  show (match m (c :: t) with
        | some r => some r
        | none => reSearch m t) = reSearch m t
  rw [hc]

/-- The leftmost `/dp/<id>` pattern over a canonically reassembled URL is
the id appended at the end: no earlier position can match. -/
theorem searchAsin_canonical {sch n X : Str}
    (hsch : ∀ c ∈ sch, c ≠ '/') (hn : ∀ c ∈ n, c ≠ '/')
    (h10 : X.length = 10) (hall : X.all isAlnumAscii = true)
    (hup : X.map Char.toUpper = X) :
    searchAsin (sch ++ ':' :: '/' :: '/' :: (n ++ '/' :: 'd' :: 'p' :: '/' ::X)) = some X := by
  have hfail1 : ∀ s2, s2 ≠ [] → s2 <:+ sch →
      matchDpAt (s2 ++ ':' :: '/' :: '/' :: (n ++ '/' :: 'd' :: 'p' :: '/' ::X)) = none := by
    intro s2 hne hsuf
    cases s2 with
    | nil => exact absurd rfl hne
    | cons c t =>
      rw [List.cons_append]
      exact matchDpAt_none_of_head (hsch c (hsuf.subset (by simp))) _
  have hfail2 : ∀ s2, s2 ≠ [] → s2 <:+ n →
      matchDpAt (s2 ++ '/' :: 'd' :: 'p' :: '/' ::X) = none := by
    intro s2 hne hsuf
    cases s2 with
    | nil => exact absurd rfl hne
    | cons c t =>
      rw [List.cons_append]
      exact matchDpAt_none_of_head (hn c (hsuf.subset (by simp))) _
  have hdp : reSearch matchDpAt
      (sch ++ ':' :: '/' :: '/' :: (n ++ '/' :: 'd' :: 'p' :: '/' ::X)) = some X := by
    rw [reSearch_append sch _ hfail1,
        reSearch_step (matchDpAt_none_of_head (by decide) _),
        reSearch_step (matchDpAt_slashslash _),
        reSearch_step (matchDpAt_slash_netloc hn X),
        reSearch_append n _ hfail2]
    show (match matchDpAt ('/' :: 'd' :: 'p' :: '/' ::X) with
          | some r => some r
          | none => reSearch matchDpAt ('d' :: 'p' :: '/' ::X)) = some X
    rw [matchDpAt_dp_head h10 hall, hup]
  unfold searchAsin
  rw [hdp]
  rfl

/-- The canonical path `/dp/<id>` itself searches back to the id. -/
theorem searchAsin_dp_head {X : Str} (h10 : X.length = 10)
    (hall : X.all isAlnumAscii = true) (hup : X.map Char.toUpper = X) :
    searchAsin ('/' :: 'd' :: 'p' :: '/' ::X) = some X := by
  have h1 : reSearch matchDpAt ('/' :: 'd' :: 'p' :: '/' ::X) = some X := by
    show (match matchDpAt ('/' :: 'd' :: 'p' :: '/' ::X) with
          | some r => some r
          | none => reSearch matchDpAt ('d' :: 'p' :: '/' ::X)) = some X
    rw [matchDpAt_dp_head h10 hall, hup]
  unfold searchAsin
  rw [h1]
  rfl

/-! ### Shape of any id returned by the regex list -/

theorem reSearch_some {m : Str → Option Str} :
    ∀ {s X : Str}, reSearch m s = some X → ∃ t, m t = some X := by
  intro s
  induction s with
  | nil => intro X h; exact ⟨[], h⟩
  | cons c t ih =>
    intro X h
    unfold reSearch at h
    cases hm : m (c :: t) with
    | some r =>
      rw [hm] at h
      exact ⟨c :: t, hm.trans h⟩
    | none =>
      rw [hm] at h
      exact ih h

theorem matchLitAsin_shape {lit s X : Str} (h : matchLitAsin lit s = some X) :
    X.length = 10 ∧ X.all isAlnumAscii = true ∧ X.map Char.toUpper = X := by
  unfold matchLitAsin at h
  cases htl : takeLitCI lit s with
  | none => rw [htl] at h; cases h
  | some rest =>
    rw [htl] at h
    simp only [] at h
    by_cases hc : (rest.take 10).length = 10 ∧ (rest.take 10).all isAlnumAscii = true
    · rw [if_pos hc] at h
      injection h with h
      subst h
      refine ⟨by simpa using hc.1, ?_, ?_⟩
      · rw [List.all_eq_true]
        intro x hx
        obtain ⟨y, hy, rfl⟩ := List.mem_map.1 hx
        exact toUpper_isAlnum (List.all_eq_true.1 hc.2 y hy)
      · rw [List.map_map]
        exact List.map_congr_left (fun a _ => toUpper_idem a)
    · rw [if_neg hc] at h
      cases h

theorem matchSlugDpAt_shape {t X : Str} (h : matchSlugDpAt t = some X) :
    X.length = 10 ∧ X.all isAlnumAscii = true ∧ X.map Char.toUpper = X := by
  unfold matchSlugDpAt at h
  split at h
  · next rest =>
    split at h
    · cases h
    · exact matchLitAsin_shape h
  · cases h

theorem searchAsin_shape {s X : Str} (h : searchAsin s = some X) :
    X.length = 10 ∧ X.all isAlnumAscii = true ∧ X.map Char.toUpper = X := by
  unfold searchAsin at h
  cases h1 : reSearch matchDpAt s with
  | some r =>
    rw [h1] at h
    have hr : (some r : Option Str) = some X := h
    injection hr with hr
    subst hr
    obtain ⟨t, ht⟩ := reSearch_some h1
    exact matchLitAsin_shape ht
  | none =>
    rw [h1] at h
    have h' : ((reSearch matchGpProductAt s).orElse fun _ =>
        (reSearch matchGpAwDAt s).orElse fun _ =>
          (reSearch matchProductAt s).orElse fun _ =>
            reSearch matchSlugDpAt s) = some X := h
    cases h2 : reSearch matchGpProductAt s with
    | some r =>
      rw [h2] at h'
      have hr : (some r : Option Str) = some X := h'
      injection hr with hr
      subst hr
      obtain ⟨t, ht⟩ := reSearch_some h2
      exact matchLitAsin_shape ht
    | none =>
      rw [h2] at h'
      have h'' : ((reSearch matchGpAwDAt s).orElse fun _ =>
          (reSearch matchProductAt s).orElse fun _ =>
            reSearch matchSlugDpAt s) = some X := h'
      cases h3 : reSearch matchGpAwDAt s with
      | some r =>
        rw [h3] at h''
        have hr : (some r : Option Str) = some X := h''
        injection hr with hr
        subst hr
        obtain ⟨t, ht⟩ := reSearch_some h3
        exact matchLitAsin_shape ht
      | none =>
        rw [h3] at h''
        have h3' : ((reSearch matchProductAt s).orElse fun _ =>
            reSearch matchSlugDpAt s) = some X := h''
        cases h4 : reSearch matchProductAt s with
        | some r =>
          rw [h4] at h3'
          have hr : (some r : Option Str) = some X := h3'
          injection hr with hr
          subst hr
          obtain ⟨t, ht⟩ := reSearch_some h4
          exact matchLitAsin_shape ht
        | none =>
          rw [h4] at h3'
          have h5 : reSearch matchSlugDpAt s = some X := h3'
          obtain ⟨t, ht⟩ := reSearch_some h5
          exact matchSlugDpAt_shape ht

theorem takeWhile_eq_self_of_all {p : Char → Bool} :
    ∀ {l : Str}, (∀ c ∈ l, p c = true) → l.takeWhile p = l
  | [], _ => rfl
  | c :: t, h => by
    rw [List.takeWhile_cons, if_pos (h c (by simp)),
        takeWhile_eq_self_of_all (fun x hx => h x (by simp [hx]))]

theorem dropWhile_eq_nil_of_all {p : Char → Bool} :
    ∀ {l : Str}, (∀ c ∈ l, p c = true) → l.dropWhile p = []
  | [], _ => rfl
  | c :: t, h => by
    rw [List.dropWhile_cons, if_pos (h c (by simp)),
        dropWhile_eq_nil_of_all (fun x hx => h x (by simp [hx]))]

/-- What `urlsplit`'s scheme detection guarantees: the split-off scheme is
empty or a lower-cased valid scheme, and the remainder is drawn from the
input. -/
theorem splitSchemeFn_inv (s : Str) :
    ((splitSchemeFn s).1 = [] ∨
      ((splitSchemeFn s).1 ≠ [] ∧ (((splitSchemeFn s).1.headD ' ').isAlpha = true) ∧
       (splitSchemeFn s).1.all schemeCharB = true ∧
       (splitSchemeFn s).1.map Char.toLower = (splitSchemeFn s).1)) ∧
    (∀ c ∈ (splitSchemeFn s).2, c ∈ s) := by
  unfold splitSchemeFn
  simp only []
  cases hd : s.dropWhile (· != ':') with
  | nil => exact ⟨Or.inl rfl, fun c hc => hc⟩
  | cons c r =>
    by_cases hc : c = ':'
    · subst hc
      simp only []
      by_cases hcond : s.takeWhile (· != ':') ≠ [] ∧
          ((s.takeWhile (· != ':')).headD ' ').isAlpha = true ∧
          (s.takeWhile (· != ':')).all schemeCharB = true
      · rw [if_pos hcond]
        obtain ⟨hne, hal, hall⟩ := hcond
        obtain ⟨a, t, hat⟩ := List.exists_cons_of_ne_nil hne
        refine ⟨Or.inr ⟨?_, ?_, ?_, ?_⟩, ?_⟩
        · simp [hat]
        · rw [hat] at hal
          rw [hat, List.map_cons]
          exact toLower_isAlpha hal
        · rw [List.all_eq_true]
          intro x hx
          obtain ⟨y, hy, rfl⟩ := List.mem_map.1 hx
          exact toLower_schemeChar (List.all_eq_true.1 hall y hy)
        · rw [List.map_map]
          exact List.map_congr_left (fun z _ => toLower_idem z)
        · intro x hx
          refine mem_of_mem_dropWhile (p := (· != ':')) (l := s) ?_
          rw [hd]
          exact List.mem_cons_of_mem _ hx
      · rw [if_neg hcond]
        exact ⟨Or.inl rfl, fun x hx => hx⟩
    · constructor
      · split
        · next heq =>
          injection heq with h1 _
          exact absurd h1 hc
        · exact Or.inl rfl
      · split
        · next heq =>
          injection heq with h1 _
          exact absurd h1 hc
        · exact fun x hx => hx

/-- Invariants of a successful `urlsplit`: a valid lower-cased scheme and
a netloc free of separators and unsafe bytes that passed the bracket
checks. -/
theorem pyUrlsplit_ok_inv {u : Str} {r : SplitR} (h : pyUrlsplit u = .ok r) :
    (r.scheme = [] ∨ (r.scheme ≠ [] ∧ ((r.scheme.headD ' ').isAlpha = true) ∧
      r.scheme.all schemeCharB = true ∧ r.scheme.map Char.toLower = r.scheme)) ∧
    (∀ c ∈ r.netloc, netlocStop c = false) ∧
    (∀ c ∈ r.netloc, (c == '\t' || c == '\r' || c == '\n') = false) ∧
    (¬(('[' ∈ r.netloc ∧ ']' ∉ r.netloc) ∨ (']' ∈ r.netloc ∧ '[' ∉ r.netloc))) ∧
    (¬('[' ∈ r.netloc ∧ ']' ∈ r.netloc ∧
      (!bracketedHostOk (((r.netloc.dropWhile (· != '[')).tail).takeWhile (· != ']'))) = true)) := by
  obtain ⟨hSI, hsub⟩ := splitSchemeFn_inv (removeUnsafeChars (u.dropWhile isC0OrSpace))
  unfold pyUrlsplit at h
  simp only [] at h
  rcases hS : splitSchemeFn (removeUnsafeChars (u.dropWhile isC0OrSpace)) with ⟨sch, r1⟩
  rw [hS] at h hSI hsub
  simp only [] at h hSI hsub
  have hr1mem : ∀ c ∈ r1, (c == '\t' || c == '\r' || c == '\n') = false := by
    intro c hcr
    have hmem := hsub c hcr
    unfold removeUnsafeChars at hmem
    have := List.of_mem_filter hmem
    simpa using this
  by_cases h2 : r1.take 2 = ['/', '/']
  · rw [if_pos h2] at h
    by_cases e1 : ('[' ∈ (r1.drop 2).takeWhile (fun c => !netlocStop c) ∧
        ']' ∉ (r1.drop 2).takeWhile (fun c => !netlocStop c)) ∨
        (']' ∈ (r1.drop 2).takeWhile (fun c => !netlocStop c) ∧
         '[' ∉ (r1.drop 2).takeWhile (fun c => !netlocStop c))
    · rw [if_pos e1] at h
      cases h
    · rw [if_neg e1] at h
      by_cases e2 : '[' ∈ (r1.drop 2).takeWhile (fun c => !netlocStop c) ∧
          ']' ∈ (r1.drop 2).takeWhile (fun c => !netlocStop c) ∧
          (!bracketedHostOk (((((r1.drop 2).takeWhile (fun c => !netlocStop c)).dropWhile
            (· != '[')).tail).takeWhile (· != ']'))) = true
      · rw [if_pos e2] at h
        cases h
      · rw [if_neg e2] at h
        rcases hsp : splitOnFirst '#' ((r1.drop 2).dropWhile (fun c => !netlocStop c))
          with ⟨r3, frag⟩
        rw [hsp] at h
        simp only [] at h
        rcases hsp2 : splitOnFirst '?' r3 with ⟨path0, q0⟩
        rw [hsp2] at h
        simp only [] at h
        injection h with h
        subst h
        refine ⟨hSI, ?_, ?_, e1, e2⟩
        · intro c hcm
          have := List.mem_takeWhile_imp hcm
          simpa using this
        · intro c hcm
          exact hr1mem c (List.mem_of_mem_drop (mem_of_mem_takeWhile hcm))
  · rw [if_neg h2] at h
    rcases hsp : splitOnFirst '#' r1 with ⟨r3, frag⟩
    rw [hsp] at h
    simp only [] at h
    rcases hsp2 : splitOnFirst '?' r3 with ⟨path0, q0⟩
    rw [hsp2] at h
    simp only [] at h
    injection h with h
    subst h
    refine ⟨hSI, ?_, ?_, ?_, ?_⟩
    · intro c hcm
      exact absurd hcm (List.not_mem_nil c)
    · intro c hcm
      exact absurd hcm (List.not_mem_nil c)
    · rintro (⟨h1, -⟩ | ⟨h1, -⟩) <;> exact absurd h1 (List.not_mem_nil _)
    · rintro ⟨h1, -, -⟩
      exact absurd h1 (List.not_mem_nil _)

/-- A successful `urlparse` factors through `urlsplit`, preserving the
scheme and the netloc. -/
theorem pyUrlparse_split {u : Str} {p : ParseR} (h : pyUrlparse u = .ok p) :
    ∃ s, pyUrlsplit u = .ok s ∧ p.scheme = s.scheme ∧ p.netloc = s.netloc := by
  unfold pyUrlparse at h
  cases hs : pyUrlsplit u with
  | error e => rw [hs] at h; cases h
  | ok s =>
    rw [hs] at h
    simp only [] at h
    by_cases hc : s.scheme ∈ usesParams ∧ ';' ∈ s.path
    · rw [if_pos hc] at h
      rcases hsp : splitParams s.path with ⟨pp, par⟩
      rw [hsp] at h
      simp only [] at h
      injection h with h
      subst h
      exact ⟨s, rfl, rfl, rfl⟩
    · rw [if_neg hc] at h
      injection h with h
      subst h
      exact ⟨s, rfl, rfl, rfl⟩

/-- Reparsing a canonically reassembled `scheme://netloc/dp/<id>` URL
recovers its components exactly. -/
theorem resplit_canonical {sch n X : Str}
    (hs1 : sch ≠ []) (hs2 : (sch.headD ' ').isAlpha = true)
    (hs3 : sch.all schemeCharB = true) (hs4 : sch.map Char.toLower = sch)
    (hn1 : ∀ c ∈ n, netlocStop c = false)
    (hn2 : ∀ c ∈ n, (c == '\t' || c == '\r' || c == '\n') = false)
    (hb1 : ¬(('[' ∈ n ∧ ']' ∉ n) ∨ (']' ∈ n ∧ '[' ∉ n)))
    (hb2 : ¬('[' ∈ n ∧ ']' ∈ n ∧
      (!bracketedHostOk (((n.dropWhile (· != '[')).tail).takeWhile (· != ']'))) = true))
    (hX : X.all isAlnumAscii = true) :
    pyUrlsplit (sch ++ ':' :: '/' :: '/' :: (n ++ '/' :: 'd' :: 'p' :: '/' ::X)) =
      .ok ⟨sch, n, '/' :: 'd' :: 'p' :: '/' ::X, [], []⟩ := by
  obtain ⟨a, t, rfl⟩ := List.exists_cons_of_ne_nil hs1
  have ha : a.isAlpha = true := hs2
  have hna : ¬(isC0OrSpace a = true) := by
    have h1 := toNat_of_isAlpha ha
    simp only [isC0OrSpace, decide_eq_true_eq]
    omega
  have hschChars : ∀ c ∈ a :: t, schemeCharB c = true := List.all_eq_true.1 hs3
  have hXmem : ∀ c ∈ X, isAlnumAscii c = true := List.all_eq_true.1 hX
  have hpredX : ∀ c ∈ X, (!(c == '\t' || c == '\r' || c == '\n')) = true := by
    intro c hcm
    have h1 := alnum_toNat (hXmem c hcm)
    simp only [Bool.not_eq_true', Bool.or_eq_false_iff, beq_eq_false_iff_ne, ne_eq]
    exact ⟨⟨char_ne (show c.toNat ≠ 9 by omega), char_ne (show c.toNat ≠ 13 by omega)⟩,
           char_ne (show c.toNat ≠ 10 by omega)⟩
  have hunsafe : removeUnsafeChars ((a :: t) ++ ':' :: '/' :: '/' ::
      (n ++ '/' :: 'd' :: 'p' :: '/' ::X)) = (a :: t) ++ ':' :: '/' :: '/' ::
      (n ++ '/' :: 'd' :: 'p' :: '/' ::X) := by
    refine filter_eq_self_of_all (fun c hcm => ?_)
    rcases List.mem_append.1 hcm with hcm | hcm
    · have h1 := schemeChar_toNat (hschChars c hcm)
      simp only [Bool.not_eq_true', Bool.or_eq_false_iff, beq_eq_false_iff_ne, ne_eq]
      exact ⟨⟨char_ne (show c.toNat ≠ 9 by omega), char_ne (show c.toNat ≠ 13 by omega)⟩,
             char_ne (show c.toNat ≠ 10 by omega)⟩
    · rcases List.mem_cons.1 hcm with rfl | hcm
      · decide
      · rcases List.mem_cons.1 hcm with rfl | hcm
        · decide
        · rcases List.mem_cons.1 hcm with rfl | hcm
          · decide
          · rcases List.mem_append.1 hcm with hcm | hcm
            · have h1 := hn2 c hcm
              simp only [Bool.not_eq_true']
              exact h1
            · rcases List.mem_cons.1 hcm with rfl | hcm
              · decide
              · rcases List.mem_cons.1 hcm with rfl | hcm
                · decide
                · rcases List.mem_cons.1 hcm with rfl | hcm
                  · decide
                  · rcases List.mem_cons.1 hcm with rfl | hcm
                    · decide
                    · exact hpredX c hcm
  have hschNe : ∀ c ∈ a :: t, (c != ':') = true := by
    intro c hcm
    have h1 := (schemeChar_toNat (hschChars c hcm)).2.2.2
    simp only [bne_iff_ne, ne_eq]
    exact char_ne (by simpa using h1)
  have hstrip : (((a :: t) ++ ':' :: '/' :: '/' :: (n ++ '/' :: 'd' :: 'p' :: '/' ::X)).dropWhile
      isC0OrSpace) = (a :: t) ++ ':' :: '/' :: '/' :: (n ++ '/' :: 'd' :: 'p' :: '/' ::X) := by
    rw [List.cons_append, List.dropWhile_cons_of_neg hna, ← List.cons_append]
  have hpre : (((a :: t) ++ ':' :: '/' :: '/' ::
      (n ++ '/' :: 'd' :: 'p' :: '/' ::X)).takeWhile (· != ':')) = a :: t := by
    rw [takeWhile_append_of_all _ hschNe, List.takeWhile_cons, if_neg (by decide)]
    rw [List.append_nil]
  have hdrop : (((a :: t) ++ ':' :: '/' :: '/' ::
      (n ++ '/' :: 'd' :: 'p' :: '/' ::X)).dropWhile (· != ':')) =
      ':' :: '/' :: '/' :: (n ++ '/' :: 'd' :: 'p' :: '/' ::X) := by
    rw [dropWhile_append_of_all _ hschNe, List.dropWhile_cons, if_neg (by decide)]
  have hSF : splitSchemeFn ((a :: t) ++ ':' :: '/' :: '/' ::
      (n ++ '/' :: 'd' :: 'p' :: '/' ::X)) = (a :: t, '/' :: '/' :: (n ++ '/' :: 'd' :: 'p' :: '/' ::X)) := by
    unfold splitSchemeFn
    simp only []
    rw [hpre, hdrop]
    simp only []
    rw [if_pos ⟨by simp, hs2, hs3⟩]
    rw [hs4]
  have hnStop : ∀ c ∈ n, (!netlocStop c) = true := by
    intro c hcm
    rw [hn1 c hcm]
    rfl
  have hnl : ((('/' :: '/' :: (n ++ '/' :: 'd' :: 'p' :: '/' ::X)).drop 2).takeWhile
      (fun c => !netlocStop c)) = n := by
    show ((n ++ '/' :: 'd' :: 'p' :: '/' ::X).takeWhile (fun c => !netlocStop c)) = n
    rw [takeWhile_append_of_all _ hnStop, List.takeWhile_cons, if_neg (by decide)]
    rw [List.append_nil]
  have hnd : ((('/' :: '/' :: (n ++ '/' :: 'd' :: 'p' :: '/' ::X)).drop 2).dropWhile
      (fun c => !netlocStop c)) = '/' :: 'd' :: 'p' :: '/' ::X := by
    show ((n ++ '/' :: 'd' :: 'p' :: '/' ::X).dropWhile (fun c => !netlocStop c)) =
      '/' :: 'd' :: 'p' :: '/' ::X
    rw [dropWhile_append_of_all _ hnStop, List.dropWhile_cons, if_neg (by decide)]
  have hpath1 : ∀ c ∈ ('/' :: 'd' :: 'p' :: '/' ::X : Str), (c != '#') = true := by
    intro c hcm
    simp only [bne_iff_ne, ne_eq]
    rcases List.mem_cons.1 hcm with rfl | hcm
    · decide
    · rcases List.mem_cons.1 hcm with rfl | hcm
      · decide
      · rcases List.mem_cons.1 hcm with rfl | hcm
        · decide
        · rcases List.mem_cons.1 hcm with rfl | hcm
          · decide
          · exact char_ne (show c.toNat ≠ 35 by
              have := alnum_toNat (hXmem c hcm); omega)
  have hpath2 : ∀ c ∈ ('/' :: 'd' :: 'p' :: '/' ::X : Str), (c != '?') = true := by
    intro c hcm
    simp only [bne_iff_ne, ne_eq]
    rcases List.mem_cons.1 hcm with rfl | hcm
    · decide
    · rcases List.mem_cons.1 hcm with rfl | hcm
      · decide
      · rcases List.mem_cons.1 hcm with rfl | hcm
        · decide
        · rcases List.mem_cons.1 hcm with rfl | hcm
          · decide
          · exact char_ne (show c.toNat ≠ 63 by
              have := alnum_toNat (hXmem c hcm); omega)
  have hp1 : splitOnFirst '#' ('/' :: 'd' :: 'p' :: '/' ::X) = ('/' :: 'd' :: 'p' :: '/' ::X, []) := by
    unfold splitOnFirst
    rw [takeWhile_eq_self_of_all hpath1, dropWhile_eq_nil_of_all hpath1]
    rfl
  have hp2 : splitOnFirst '?' ('/' :: 'd' :: 'p' :: '/' ::X) = ('/' :: 'd' :: 'p' :: '/' ::X, []) := by
    unfold splitOnFirst
    rw [takeWhile_eq_self_of_all hpath2, dropWhile_eq_nil_of_all hpath2]
    rfl
  unfold pyUrlsplit
  simp only []
  rw [hstrip, hunsafe, hSF]
  simp only []
  rw [if_pos (show (('/' :: '/' :: (n ++ '/' :: 'd' :: 'p' :: '/' ::X)).take 2) = ['/', '/'] from rfl)]
  rw [hnl, hnd]
  rw [if_neg hb1, if_neg hb2, hp1]
  simp only []
  rw [hp2]

/-- The full `urlparse` of the canonical reassembly. -/
theorem reparse_canonical {sch n X : Str}
    (hs1 : sch ≠ []) (hs2 : (sch.headD ' ').isAlpha = true)
    (hs3 : sch.all schemeCharB = true) (hs4 : sch.map Char.toLower = sch)
    (hn1 : ∀ c ∈ n, netlocStop c = false)
    (hn2 : ∀ c ∈ n, (c == '\t' || c == '\r' || c == '\n') = false)
    (hb1 : ¬(('[' ∈ n ∧ ']' ∉ n) ∨ (']' ∈ n ∧ '[' ∉ n)))
    (hb2 : ¬('[' ∈ n ∧ ']' ∈ n ∧
      (!bracketedHostOk (((n.dropWhile (· != '[')).tail).takeWhile (· != ']'))) = true))
    (hX : X.all isAlnumAscii = true) :
    pyUrlparse (sch ++ ':' :: '/' :: '/' :: (n ++ '/' :: 'd' :: 'p' :: '/' ::X)) =
      .ok ⟨sch, n, '/' :: 'd' :: 'p' :: '/' ::X, [], [], []⟩ := by
  unfold pyUrlparse
  rw [resplit_canonical hs1 hs2 hs3 hs4 hn1 hn2 hb1 hb2 hX]
  simp only []
  rw [if_neg]
  rintro ⟨-, hmem⟩
  simp only [List.mem_cons] at hmem
  rcases hmem with h | h | h | h | h
  · exact absurd h (by decide)
  · exact absurd h (by decide)
  · exact absurd h (by decide)
  · exact absurd h (by decide)
  · have h1 := List.all_eq_true.1 hX _ h
    exact absurd h1 (by decide)

/-- The canonicalizer's output on a URL whose parsed path carries a
product-id. -/
theorem canonicalize_asin_form {u : Str} {p : ParseR} {X : Str}
    (hP : pyUrlparse u = .ok p) (hA : searchAsin p.path = some X) :
    canonicalize_amazon_url u =
      (if p.scheme = [] then "https".toList else p.scheme) ++ ':' :: '/' :: '/' ::
        ((if p.netloc = [] then "www.amazon.com".toList else p.netloc) ++
          '/' :: 'd' :: 'p' :: '/' :: X) := by
  have hs' : (if p.scheme = [] then "https".toList else p.scheme) ≠ [] := by
    by_cases h : p.scheme = [] <;> simp [h]
  have hn' : (if p.netloc = [] then "www.amazon.com".toList else p.netloc) ≠ [] := by
    by_cases h : p.netloc = [] <;> simp [h]
  unfold canonicalize_amazon_url
  rw [hP]
  simp only []
  rw [hA]
  simp only []
  rw [pyUrlunparse_eq]
  unfold pyUrlunsplit
  simp only []
  rw [if_pos (Or.inl hn'), if_pos hs',
      if_neg (show ¬(([] : Str) ≠ []) from fun h => h rfl),
      if_neg (show ¬(([] : Str) ≠ []) from fun h => h rfl),
      if_neg (show ¬("/dp/".toList ++ X ≠ [] ∧
        ("/dp/".toList ++ X).take 1 ≠ ['/']) from fun h => h.2 rfl)]
  rfl

/-- The effective scheme and host used by the canonicalizer satisfy the
reparse invariants. -/
theorem canon_parts_inv {u : Str} {p : ParseR} (hP : pyUrlparse u = .ok p) :
    ((if p.scheme = [] then "https".toList else p.scheme) ≠ [] ∧
     (((if p.scheme = [] then "https".toList else p.scheme).headD ' ').isAlpha = true) ∧
     ((if p.scheme = [] then "https".toList else p.scheme).all schemeCharB = true) ∧
     ((if p.scheme = [] then "https".toList else p.scheme).map Char.toLower =
       (if p.scheme = [] then "https".toList else p.scheme))) ∧
    ((∀ c ∈ (if p.netloc = [] then "www.amazon.com".toList else p.netloc),
        netlocStop c = false) ∧
     (∀ c ∈ (if p.netloc = [] then "www.amazon.com".toList else p.netloc),
        (c == '\t' || c == '\r' || c == '\n') = false) ∧
     (¬(('[' ∈ (if p.netloc = [] then "www.amazon.com".toList else p.netloc) ∧
         ']' ∉ (if p.netloc = [] then "www.amazon.com".toList else p.netloc)) ∨
        (']' ∈ (if p.netloc = [] then "www.amazon.com".toList else p.netloc) ∧
         '[' ∉ (if p.netloc = [] then "www.amazon.com".toList else p.netloc)))) ∧
     (¬('[' ∈ (if p.netloc = [] then "www.amazon.com".toList else p.netloc) ∧
        ']' ∈ (if p.netloc = [] then "www.amazon.com".toList else p.netloc) ∧
        (!bracketedHostOk ((((if p.netloc = [] then "www.amazon.com".toList
            else p.netloc).dropWhile (· != '[')).tail).takeWhile (· != ']'))) = true))) := by
  obtain ⟨s, hs, hps, hpn⟩ := pyUrlparse_split hP
  obtain ⟨hSI, hN1, hN2, hB1, hB2⟩ := pyUrlsplit_ok_inv hs
  rw [hps, hpn]
  constructor
  · by_cases hsch : s.scheme = []
    · rw [if_pos hsch]
      exact ⟨by decide, by decide, by decide, by decide⟩
    · rw [if_neg hsch]
      rcases hSI with h | h
      · exact absurd h hsch
      · exact h
  · by_cases hn : s.netloc = []
    · rw [if_pos hn]
      exact ⟨by decide, by decide, by decide, by decide⟩
    · rw [if_neg hn]
      exact ⟨hN1, hN2, hB1, hB2⟩

/-- C8 (amended): for every URL that parses and whose parsed path carries
a 10-character alphanumeric product-id in a recognized shape, extracting
the id from the canonicalized URL recovers exactly that id, and
canonicalization is idempotent on such URLs. (Unrestricted idempotence is
false: see the counterexample.) -/
theorem C8_canonicalize_roundtrip (u : Str) :
    (∀ p X, pyUrlparse u = .ok p → searchAsin p.path = some X →
      extract_asin (canonicalize_amazon_url u) = some X) ∧
    (∀ p X, pyUrlparse u = .ok p → searchAsin p.path = some X →
      canonicalize_amazon_url (canonicalize_amazon_url u) = canonicalize_amazon_url u) := by
  have main : ∀ p X, pyUrlparse u = .ok p → searchAsin p.path = some X →
      extract_asin (canonicalize_amazon_url u) = some X ∧
      canonicalize_amazon_url (canonicalize_amazon_url u) = canonicalize_amazon_url u := by
    intro p X hP hA
    obtain ⟨h10, hall, hup⟩ := searchAsin_shape hA
    obtain ⟨⟨hs1, hs2, hs3, hs4⟩, hn1, hn2, hb1, hb2⟩ := canon_parts_inv hP
    have hschSlash : ∀ c ∈ (if p.scheme = [] then "https".toList else p.scheme),
        c ≠ '/' := by
      intro c hc
      have h1 := schemeChar_toNat (List.all_eq_true.1 hs3 c hc)
      exact char_ne (show c.toNat ≠ 47 by omega)
    have hnSlash : ∀ c ∈ (if p.netloc = [] then "www.amazon.com".toList else p.netloc),
        c ≠ '/' := by
      intro c hc he
      have h1 := hn1 c hc
      rw [he] at h1
      exact absurd h1 (by decide)
    have hn' : (if p.netloc = [] then "www.amazon.com".toList else p.netloc) ≠ [] := by
      by_cases h : p.netloc = [] <;> simp [h]
    constructor
    · rw [canonicalize_asin_form hP hA]
      exact searchAsin_canonical hschSlash hnSlash h10 hall hup
    · rw [canonicalize_asin_form hP hA]
      unfold canonicalize_amazon_url
      rw [reparse_canonical hs1 hs2 hs3 hs4 hn1 hn2 hb1 hb2 hall]
      simp only []
      rw [searchAsin_dp_head h10 hall hup]
      simp only []
      rw [if_neg hs1, if_neg hn']
      rw [pyUrlunparse_eq]
      unfold pyUrlunsplit
      simp only []
      rw [if_pos (Or.inl hn'), if_pos hs1,
          if_neg (show ¬(([] : Str) ≠ []) from fun h => h rfl),
          if_neg (show ¬(([] : Str) ≠ []) from fun h => h rfl),
          if_neg (show ¬("/dp/".toList ++ X ≠ [] ∧
            ("/dp/".toList ++ X).take 1 ≠ ['/']) from fun h => h.2 rfl)]
      rfl
  exact ⟨fun p X hP hA => (main p X hP hA).1, fun p X hP hA => (main p X hP hA).2⟩

/-- Counterexample to C8's unrestricted idempotence: the schemeless,
hostless `dp/B012345678` gains a leading `/` (and so a recognizable
product-id) only after one canonicalization pass, so the second pass
rewrites it again. -/
theorem C8_counterexample :
    canonicalize_amazon_url (canonicalize_amazon_url "dp/B012345678".toList) ≠
      canonicalize_amazon_url "dp/B012345678".toList := by
  decide

/-- Witness for C8 at a concrete input: a full product URL with query
noise. -/
theorem C8_canonicalize_roundtrip_witness :
    extract_asin (canonicalize_amazon_url
      "https://www.amazon.com/dp/B012345678?q=1".toList) = some "B012345678".toList ∧
    canonicalize_amazon_url (canonicalize_amazon_url
      "https://www.amazon.com/dp/B012345678?q=1".toList) =
      canonicalize_amazon_url "https://www.amazon.com/dp/B012345678?q=1".toList :=
  ⟨(C8_canonicalize_roundtrip "https://www.amazon.com/dp/B012345678?q=1".toList).1
    ⟨"https".toList, "www.amazon.com".toList, "/dp/B012345678".toList, [],
      "q=1".toList, []⟩ "B012345678".toList rfl (by decide),
   (C8_canonicalize_roundtrip "https://www.amazon.com/dp/B012345678?q=1".toList).2
    ⟨"https".toList, "www.amazon.com".toList, "/dp/B012345678".toList, [],
      "q=1".toList, []⟩ "B012345678".toList rfl (by decide)⟩

end Tracker
